import Mathlib

/-!
Verification of the atman-persist core: a shallow embedding of the identity
codec (soul_encoder.py / soul_decoder.py), the Merkle integrity tree
(integrity.py), the Shamir threshold key manager (shamir_keys.py) and the
resurrection orchestrator (resurrection.py, with the in-memory
LocalArweaveStore of arweave_store.py), together with proofs of the
specification's claims about them.

Modelling conventions:
* Byte strings are `List Nat` with entries < 256.
* External library primitives that the repository calls but does not
  implement (SHA-256/SHA-512 digests, AES-GCM, zlib, json.dumps/json.loads,
  time.time) are passed in as explicit function parameters; theorems that
  depend on a true property of such a primitive (e.g. that zlib
  decompression inverts compression) take that property as a pointwise
  hypothesis at the inputs actually used.
* Python dicts are modelled as association lists of string keys in canonical
  (sorted, duplicate-free) key order, matching the canonical form produced
  by json.dumps(sort_keys=True) followed by json.loads; Python dict equality
  ignores key order, so the canonical form is a faithful representative.
* Python exceptions are modelled with `Except`; distinct raise sites get
  distinct error constructors.
-/

namespace Atman

/-- Byte strings: lists of naturals (each < 256 for genuine bytes). -/
abbrev Bytes := List Nat

/-- JSON values as produced by json.loads: numbers are kept as their literal
repr text, since the codec treats them opaquely. -/
inductive Json where
  | null
  | bool (b : Bool)
  | num (lit : String)
  | str (s : String)
  | arr (items : List Json)
  | obj (entries : List (String × Json))

/-- UTF-8 bytes of a string.  json.dumps uses ensure_ascii=True so every
canonical serialization in this system is pure ASCII, where UTF-8 bytes are
exactly the character code points. -/
def asciiBytes (s : String) : Bytes :=
  s.toList.map Char.toNat

/-- Big-endian interpretation of a byte string (int.from_bytes(_, "big")). -/
def beToNat (l : Bytes) : Nat :=
  l.foldl (fun a b => a * 256 + b) 0

/-- Four-byte big-endian encoding (n.to_bytes(4, "big"), defined for n < 2^32). -/
def be4 (n : Nat) : Bytes :=
  [n / 2 ^ 24 % 256, n / 2 ^ 16 % 256, n / 2 ^ 8 % 256, n % 256]

/-- Python dict lookup on an association list (first match). -/
def jget (ps : List (String × Json)) (k : String) : Option Json :=
  (ps.find? (fun p => p.1 == k)).map Prod.snd

/-- Python dict item assignment d[k] = v: replace in place if the key is
present, else append. -/
def dictSet (ps : List (String × Json)) (k : String) (v : Json) :
    List (String × Json) :=
  if ps.any (fun p => p.1 == k) then
    ps.map (fun p => if p.1 == k then (k, v) else p)
  else ps ++ [(k, v)]

/-- Python truthiness of a JSON value (None, False, 0, "", [], {} are falsy). -/
def Json.truthy : Json → Bool
  | .null => false
  | .bool b => b
  | .num lit => !(lit == "0" || lit == "0.0" || lit == "-0.0")
  | .str s => !(s == "")
  | .arr items => !items.isEmpty
  | .obj entries => !entries.isEmpty

/-- Python equality between a str and an arbitrary JSON value (used for
computed_root == stored_root, which is False when stored_root is not a str). -/
def strEqJson (s : String) : Json → Bool
  | .str t => s == t
  | _ => false

/-! ## Data model (soul_encoder.py)

SoulFragment and Soul are Python dataclasses whose fields are not
type-checked at runtime, so every field that can hold arbitrary
deserialized content is modelled as `Json`. -/

/-- SoulFragment: atomic unit of agent identity (soul_encoder.py). -/
structure SoulFragment where
  domain : Json
  key : Json
  value : Json
  weight : Json
  timestamp : Json
  provenance : Json

/-- Soul: complete agent identity container (soul_encoder.py).  `metadata`
is a Json value (a dict in well-formed records, but Python never checks). -/
structure Soul where
  agent_id : Json
  version : Json
  fragments : List SoulFragment
  created_at : Json
  model_origin : Json
  metadata : Json

/-- dataclasses.asdict of a SoulFragment, in canonical (sorted) key order. -/
def fragJson (f : SoulFragment) : Json :=
  .obj [("domain", f.domain), ("key", f.key), ("provenance", f.provenance),
        ("timestamp", f.timestamp), ("value", f.value), ("weight", f.weight)]

/-- dataclasses.asdict of a Soul, in canonical (sorted) key order: the JSON
tree that json.dumps(asdict(soul), sort_keys=True) serializes and that
json.loads recovers from the serialization. -/
def soulJson (s : Soul) : Json :=
  .obj [("agent_id", s.agent_id), ("created_at", s.created_at),
        ("fragments", .arr (s.fragments.map fragJson)),
        ("metadata", s.metadata), ("model_origin", s.model_origin),
        ("version", s.version)]

/-! ## External primitive signatures -/

/-- SHA-256 hexdigest of a byte string (hashlib.sha256(_).hexdigest()). -/
abbrev HashFn := Bytes → String

/-- SHA-512 digest bytes (hashlib.sha512(_).digest(), 64 bytes). -/
abbrev Sha512Fn := Bytes → Bytes

/-- Canonical JSON serialization to text
(json.dumps(_, sort_keys=True, separators=(",", ":"))). -/
abbrev DumpFn := Json → String

/-- JSON parsing (json.loads); errors model json.JSONDecodeError. -/
abbrev LoadFn := Bytes → Except String Json

/-- zlib.compress(_, level=9). -/
abbrev CompressFn := Bytes → Bytes

/-- zlib.decompress; errors model zlib.error. -/
abbrev DecompressFn := Bytes → Except String Bytes

/-- AESGCM(key).encrypt(nonce, plaintext, associated_data), tag included. -/
abbrev EncryptFn := Bytes → Bytes → Bytes → Bytes → Bytes

/-- AESGCM(key).decrypt(nonce, ciphertext, associated_data); errors model
the InvalidTag authentication failure. -/
abbrev DecryptFn := Bytes → Bytes → Bytes → Bytes → Except String Bytes

/-! ## IdentityCodec (soul_encoder.py / soul_decoder.py) -/

/-- The 5-byte magic constant b"ATMAN". -/
def MAGIC : Bytes := [65, 84, 77, 65, 78]

/-- SoulEncoder.FORMAT_VERSION. -/
def FORMAT_VERSION : Nat := 1

/-- SoulEncoder.encode: canonical JSON, zlib compress, AES-256-GCM encrypt,
pack magic + version + nonce + 4-byte big-endian pre-compression length +
ciphertext.  The fresh random nonce is passed explicitly.  Returns none when
the original size does not fit the 4-byte field (Python's to_bytes raises
OverflowError there). -/
def encode (dumps : DumpFn) (compress : CompressFn) (aesEncrypt : EncryptFn)
    (key nonce : Bytes) (soul : Soul) : Option Bytes :=
  let raw := asciiBytes (dumps (soulJson soul))
  let original_size := raw.length
  if original_size < 2 ^ 32 then
    let compressed := compress raw
    let ciphertext := aesEncrypt key nonce compressed MAGIC
    some (MAGIC ++ [FORMAT_VERSION] ++ nonce ++ be4 original_size ++ ciphertext)
  else none

/-- Failure outcomes of SoulDecoder.decode.  The first seven constructors
are the classified SoulDecodeError raise sites; keyError and typeError model
bare Python exceptions that escape SoulDecoder._reconstruct unclassified
(there is no try/except around it in decode). -/
inductive DecodeErr where
  | payloadTooShort
  | badMagic (magic : Bytes)
  | unsupportedVersion (v : Nat)
  | decryptionFailed (msg : String)
  | decompressionFailed (msg : String)
  | sizeMismatch (expected got : Nat)
  | jsonParseFailed (msg : String)
  | keyError (k : String)
  | typeError
deriving DecidableEq

/-- Whether a decode failure is a classified SoulDecodeError (true) or a
bare exception escaping decode (false). -/
def DecodeErr.isClassified : DecodeErr → Bool
  | .keyError _ => false
  | .typeError => false
  | _ => true

/-- The allowed keyword names of SoulFragment(**frag). -/
def fragmentFields : List String :=
  ["domain", "key", "value", "weight", "timestamp", "provenance"]

/-- SoulFragment(**frag): requires a dict with keys among the dataclass
fields and domain/key/value present (the fields without defaults); a
missing timestamp defaults to time.time(), passed in as now.  Any other
shape raises TypeError in Python. -/
def jsonToFragment (now : Json) (j : Json) : Except DecodeErr SoulFragment :=
  match j with
  | .obj ps =>
    if ps.any (fun p => !(fragmentFields.contains p.1)) then .error .typeError
    else
      match jget ps "domain", jget ps "key", jget ps "value" with
      | some d, some k, some v =>
        .ok ⟨d, k, v, (jget ps "weight").getD (.num "1.0"),
             (jget ps "timestamp").getD now,
             (jget ps "provenance").getD (.str "")⟩
      | _, _, _ => .error .typeError
  | _ => .error .typeError

/-- SoulDecoder._reconstruct: rebuild a Soul from the deserialized JSON
value.  Mirrors the Python evaluation order: obj.pop("fragments", []) runs
before obj["agent_id"], and the latter raises a bare KeyError when the key
is absent. -/
def reconstruct (now : Json) (obj : Json) : Except DecodeErr Soul :=
  match obj with
  | .obj ps =>
    match (jget ps "fragments").getD (.arr []) with
    | .arr frs =>
      match frs.mapM (jsonToFragment now) with
      | .error e => .error e
      | .ok fragments =>
        match jget ps "agent_id" with
        | none => .error (.keyError "agent_id")
        | some agent_id =>
          .ok ⟨agent_id, (jget ps "version").getD (.num "1"), fragments,
               (jget ps "created_at").getD (.num "0"),
               (jget ps "model_origin").getD (.str ""),
               (jget ps "metadata").getD (.obj [])⟩
    | _ => .error .typeError
  | _ => .error .typeError

/-- SoulDecoder.decode: parse the header (nonce = data[6:18], original_size
= big-endian data[18:22], ciphertext = data[22:]), AEAD-decrypt, decompress,
check the recorded pre-compression size, JSON-parse, and reconstruct. -/
def decode (loads : LoadFn) (decompress : DecompressFn) (aesDecrypt : DecryptFn)
    (now : Json) (key data : Bytes) : Except DecodeErr Soul :=
  if data.length < 22 then .error .payloadTooShort
  else if data.take 5 ≠ MAGIC then .error (.badMagic (data.take 5))
  else if data.getD 5 0 ≠ FORMAT_VERSION then
    .error (.unsupportedVersion (data.getD 5 0))
  else
    match aesDecrypt key ((data.drop 6).take 12) (data.drop 22) MAGIC with
    | .error e => .error (.decryptionFailed e)
    | .ok compressed =>
      match decompress compressed with
      | .error e => .error (.decompressionFailed e)
      | .ok raw =>
        if raw.length ≠ beToNat ((data.drop 18).take 4) then
          .error (.sizeMismatch (beToNat ((data.drop 18).take 4)) raw.length)
        else
          match loads raw with
          | .error e => .error (.jsonParseFailed e)
          | .ok obj => reconstruct now obj

/-! ## IntegrityTree (integrity.py)

All functions are parameterized by the SHA-256 hexdigest function and the
canonical JSON dump used for leaf hashing. -/

/-- MerkleProof: proof that a specific fragment is part of the soul.  The
side tag is the literal Python string "left" or "right". -/
structure MerkleProof where
  leaf_index : Nat
  leaf_hash : String
  siblings : List (String × String)
  root : String

/-- MerkleIntegrity._leaf_hash: sha256 of b"leaf:" + canonical JSON. -/
def leaf_hash (sha : HashFn) (dumps : DumpFn) (fragment : Json) : String :=
  sha (asciiBytes ("leaf:" ++ dumps fragment))

/-- MerkleIntegrity._node_hash: sha256 of the text "node:{left}:{right}"
(over the textual hex digests of the children, not their raw bytes). -/
def node_hash (sha : HashFn) (l r : String) : String :=
  sha (asciiBytes ("node:" ++ l ++ ":" ++ r))

/-- Duplicate-last padding: append a copy of the last hash when the level
has odd length (hashes.append(hashes[-1])). -/
def padEven (l : List String) : List String :=
  if l.length % 2 = 1 then
    match l.getLast? with
    | some last => l ++ [last]
    | none => l
  else l

/-- One level of pairing: hash adjacent nodes
(next_level.append(node_hash(hashes[i], hashes[i+1])) for even i). -/
def pairUp (sha : HashFn) : List String → List String
  | [] => []
  | [_] => []
  | a :: b :: rest => node_hash sha a b :: pairUp sha rest

theorem pairUp_length (sha : HashFn) :
    ∀ l : List String, (pairUp sha l).length = l.length / 2
  | [] => by simp [pairUp]
  | [_] => by simp [pairUp]
  | _ :: _ :: rest => by
    simp only [pairUp, List.length_cons, pairUp_length sha rest]
    omega

theorem padEven_length (l : List String) :
    (padEven l).length = l.length + l.length % 2 := by
  rcases l.eq_nil_or_concat with rfl | ⟨l', a, rfl⟩
  · rfl
  · simp only [List.concat_eq_append]
    rw [padEven]
    simp only [List.getLast?_concat]
    by_cases h : (l' ++ [a]).length % 2 = 1
    · rw [if_pos h]
      simp only [List.length_append, List.length_cons, List.length_nil] at h ⊢
      omega
    · rw [if_neg h]
      simp only [List.length_append, List.length_cons, List.length_nil] at h ⊢
      omega

/-- MerkleIntegrity._build_tree: recursively pad to even length and pair
until a single hash remains.  The empty-list case is unreachable in the
source (compute_root guards it) and maps to the empty string. -/
def build_tree (sha : HashFn) (l : List String) : String :=
  if _h : l.length ≤ 1 then l.headD ""
  else build_tree sha (pairUp sha (padEven l))
termination_by l.length
decreasing_by simp [pairUp_length, padEven_length]; omega

/-- MerkleIntegrity.compute_root over a fragment list (the asdict
representations): the fixed sentinel hash for an empty list, otherwise the
tree over the leaf hashes. -/
def compute_root (sha : HashFn) (dumps : DumpFn) (frags : List SoulFragment) :
    String :=
  let leaves := frags.map fragJson
  if leaves.isEmpty then sha (asciiBytes "empty-soul")
  else build_tree sha (leaves.map (leaf_hash sha dumps))

/-- MerkleIntegrity._collect_siblings: walk the levels, recording the node
at index XOR 1 (after padding) with its side tag, halving the index at each
descent. -/
def collect_siblings (sha : HashFn) (level : List String) (index : Nat) :
    List (String × String) :=
  if _h : level.length ≤ 1 then []
  else
    (if index ^^^ 1 < (padEven level).length then
      [((padEven level).getD (index ^^^ 1) "",
        if index % 2 = 0 then "right" else "left")]
     else []) ++ collect_siblings sha (pairUp sha (padEven level)) (index / 2)
termination_by level.length
decreasing_by simp [pairUp_length, padEven_length]; omega

/-- MerkleIntegrity.prove_fragment: pad the leaf-hash level once, then
collect siblings and build the root from the padded level. -/
def prove_fragment (sha : HashFn) (dumps : DumpFn) (frags : List SoulFragment)
    (fragment_index : Nat) : MerkleProof :=
  let leaves := frags.map fragJson
  let hashes := padEven (leaves.map (leaf_hash sha dumps))
  { leaf_index := fragment_index
    leaf_hash := leaf_hash sha dumps (leaves.getD fragment_index .null)
    siblings := collect_siblings sha hashes fragment_index
    root := build_tree sha hashes }

/-- MerkleIntegrity.verify_proof: fold the leaf hash with the recorded
siblings (left/right according to the side tag) and compare to the root. -/
def verify_proof (sha : HashFn) (proof : MerkleProof) : Bool :=
  (proof.siblings.foldl
    (fun current p =>
      if p.2 == "right" then node_hash sha current p.1
      else node_hash sha p.1 current)
    proof.leaf_hash) == proof.root

/-! ## SecretSharer (shamir_keys.py)

The manager is always instantiated with the default prime 257, which is
fixed here.  The polynomial coefficients are derived deterministically from
SHA-512(key + b"shamir-coefficients"); the digest function is a parameter.
Of the three share-construction passes in split, only the last
(full_shares, storing each field value as 2 big-endian bytes) reaches the
returned value; the discarded passes are not modelled. -/

/-- A single share of the encryption key. -/
structure KeyShare where
  index : Nat
  data : Bytes
  fingerprint : String
deriving DecidableEq

/-- ShamirKeyManager._eval_poly: integer evaluation of the polynomial with
the given coefficients (sum of coeffs[i] * x^i, in Horner form). -/
def eval_poly : List Nat → Nat → Nat
  | [], _ => 0
  | c :: cs, x => c + x * eval_poly cs x

/-- The domain-separation label b"shamir-coefficients". -/
def shamir_label : Bytes := asciiBytes "shamir-coefficients"

/-- One deterministic coefficient: two seed bytes combined big-endian and
reduced mod 257. -/
def shamir_coeff (rng_seed : Bytes) (threshold byte_idx c : Nat) : Nat :=
  let offset := (byte_idx * (threshold - 1) + c) * 2
  (rng_seed.getD (offset % rng_seed.length) 0 * 256 +
   rng_seed.getD ((offset + 1) % rng_seed.length) 0) % 257

/-- The coefficient list for one key byte: the byte itself as constant term
followed by threshold - 1 derived coefficients. -/
def shamir_coeffs (rng_seed : Bytes) (threshold byte_idx byte_val : Nat) :
    List Nat :=
  byte_val :: (List.range (threshold - 1)).map (shamir_coeff rng_seed threshold byte_idx)

/-- The share field value for one key byte at evaluation point x:
_eval_poly(coeffs, x) % prime. -/
def share_y (rng_seed : Bytes) (threshold byte_idx byte_val x : Nat) : Nat :=
  eval_poly (shamir_coeffs rng_seed threshold byte_idx byte_val) x % 257

/-- The data blob of one share: for each key byte (enumerated from
byte_idx), the field value as 2 big-endian bytes (y.to_bytes(2, "big")). -/
def share_bytes (rng_seed : Bytes) (threshold : Nat) :
    List Nat → Nat → Nat → Bytes
  | [], _, _ => []
  | b :: rest, byte_idx, x =>
    let y := share_y rng_seed threshold byte_idx b x
    y / 256 :: y % 256 :: share_bytes rng_seed threshold rest (byte_idx + 1) x

/-- Failure outcomes of ShamirKeyManager.split (each a distinct ValueError
raise site). -/
inductive SplitErr where
  | invalidKeyLength
  | thresholdExceedsShares
  | thresholdTooSmall
deriving DecidableEq

/-- ShamirKeyManager.split: validate, then produce num_shares shares with
1-based indices, each tagged with the first 16 hex characters of the
SHA-256 fingerprint of the key. -/
def split (sha : HashFn) (sha512 : Sha512Fn) (key : Bytes)
    (threshold num_shares : Nat) : Except SplitErr (Bytes × List KeyShare) :=
  if key.length ≠ 32 then .error .invalidKeyLength
  else if threshold > num_shares then .error .thresholdExceedsShares
  else if threshold < 2 then .error .thresholdTooSmall
  else
    let fingerprint := (sha key).take 16
    let rng_seed := sha512 (key ++ shamir_label)
    .ok (key, (List.range num_shares).map (fun i =>
      ⟨i + 1, share_bytes rng_seed threshold key 0 (i + 1), fingerprint⟩))

/-- ShamirKeyManager._lagrange_interpolate with the default prime 257: the
Python loops over range(k) with interleaved % p.  The first inner fold is
the num accumulator (seeded with ys[i]), the second the den accumulator
(seeded with 1), and pow(den, p - 2, p) is den ^ 255 % 257. -/
def lagrange_interpolate (x : Int) (xs ys : List Int) : Int :=
  (List.range xs.length).foldl
    (fun result i =>
      (result +
        ((List.range xs.length).foldl
          (fun num j => if j = i then num else num * (x - xs.getD j 0) % 257)
          (ys.getD i 0)) *
        (((List.range xs.length).foldl
          (fun den j =>
            if j = i then den else den * (xs.getD i 0 - xs.getD j 0) % 257)
          1) ^ 255 % 257)) % 257)
    0

/-- The key assembled by ShamirKeyManager.combine before the fingerprint
check: per byte position, extract the 2-byte big-endian field values from
the shares (xs = the share indices), interpolate at x = 0, and reduce the
secret mod 256. -/
def assemble_key (shares : List KeyShare) (key_length : Nat) : Bytes :=
  (List.range key_length).map (fun byte_idx =>
    ((lagrange_interpolate 0 (shares.map (fun s => (s.index : Int)))
      (shares.map
        (fun s => (beToNat ((s.data.drop (byte_idx * 2)).take 2) : Int)))) %
      256).toNat)

/-- Failure outcomes of ShamirKeyManager.combine (each a distinct
ValueError raise site). -/
inductive CombineErr where
  | insufficientShares
  | mismatchedFingerprints
  | fingerprintMismatch
deriving DecidableEq

/-- ShamirKeyManager.combine with the default key_length = 32: require at
least 2 shares, require a single fingerprint across shares before any
interpolation, interpolate, then require the recomputed fingerprint of the
assembled key to match. -/
def combine (sha : HashFn) (shares : List KeyShare) : Except CombineErr Bytes :=
  if shares.length < 2 then .error .insufficientShares
  else if shares.any
      (fun s => !(s.fingerprint == (shares.headD ⟨0, [], ""⟩).fingerprint)) then
    .error .mismatchedFingerprints
  else
    let result := assemble_key shares 32
    if (sha result).take 16 ≠ (shares.headD ⟨0, [], ""⟩).fingerprint then
      .error .fingerprintMismatch
    else .ok result

/-! ## RevivalOrchestrator (resurrection.py) with the in-memory store
(arweave_store.py, LocalArweaveStore)

The store's download is a parameter (an arbitrary dependency that can throw,
modelled as Except with the exception's str() as payload).  Wall-clock
elapsed time is modelled by an explicit elapsed_ms value threaded through.
-/

/-- ResurrectionResult (resurrection.py). -/
structure ResurrectionResult where
  success : Bool
  soul : Option Soul
  source_tx : String
  integrity_verified : Bool
  elapsed_ms : Nat
  error : String
  metadata : List (String × Json)

/-- The message of the classified SoulDecodeError raised at each decode
failure site (the f-string payloads of soul_decoder.py). -/
def DecodeErr.pyMessage : DecodeErr → String
  | .payloadTooShort => "Payload too short"
  | .badMagic _ => "Invalid magic bytes"
  | .unsupportedVersion _ => "Unsupported format version"
  | .decryptionFailed e => "Decryption failed (wrong key or corrupted data): " ++ e
  | .decompressionFailed e => "Decompression failed: " ++ e
  | .sizeMismatch _ _ => "Size mismatch"
  | .jsonParseFailed e => "JSON parse failed: " ++ e
  | .keyError k => "'" ++ k ++ "'"
  | .typeError => "TypeError"

/-- The error string stored in a failed ResurrectionResult for a decode
failure: classified SoulDecodeErrors are caught by the dedicated handler
and prefixed with "Decode failed: "; bare exceptions fall to the generic
handler, which stores str(e). -/
def DecodeErr.toResultError (e : DecodeErr) : String :=
  if e.isClassified then "Decode failed: " ++ e.pyMessage else e.pyMessage

/-- ResurrectionProtocol.resurrect: download, decode, optionally verify the
Merkle root recorded in the decoded soul's metadata.  Every dependency
failure is converted into a failure result; a Merkle mismatch only clears
integrity_verified.  The short-circuit of the Python conjunction
self._verify and soul.metadata.get("merkle_root") is preserved: the
metadata attribute access (which throws on a non-dict) only happens when
verify is true. -/
def resurrect (loads : LoadFn) (decompress : DecompressFn)
    (aesDecrypt : DecryptFn) (now : Json) (sha : HashFn) (dumps : DumpFn)
    (key : Bytes) (verify : Bool) (download : String → Except String Bytes)
    (elapsed_ms : Nat) (tx_id : String) : ResurrectionResult :=
  match download tx_id with
  | .error e => ⟨false, none, tx_id, false, elapsed_ms, e, []⟩
  | .ok encrypted_data =>
    match decode loads decompress aesDecrypt now key encrypted_data with
    | .error e => ⟨false, none, tx_id, false, elapsed_ms, e.toResultError, []⟩
    | .ok soul =>
      let result_meta : List (String × Json) :=
        [("fragment_count", .num (toString soul.fragments.length)),
         ("model_origin", soul.model_origin),
         ("soul_version", soul.version)]
      if verify then
        match soul.metadata with
        | .obj ms =>
          let integrity_ok :=
            match jget ms "merkle_root" with
            | some stored =>
              if stored.truthy then
                strEqJson (compute_root sha dumps soul.fragments) stored
              else true
            | none => true
          ⟨true, some soul, tx_id, integrity_ok, elapsed_ms, "", result_meta⟩
        | _ =>
          ⟨false, none, tx_id, false, elapsed_ms,
           "AttributeError: object has no attribute get", []⟩
      else ⟨true, some soul, tx_id, true, elapsed_ms, "", result_meta⟩

/-- StorageReceipt, restricted to the fields LocalArweaveStore.upload
populates. -/
structure StorageReceipt where
  tx_id : String
  size_bytes : Nat
  sha256 : String

/-- The in-memory store state of LocalArweaveStore (a Python dict from
tx_id to bytes; assignment is cons, lookup is first match). -/
abbrev LocalStore := List (String × Bytes)

/-- LocalArweaveStore.upload: key the blob by "local-" plus the first 32
hex characters of its SHA-256. -/
def localUpload (sha : HashFn) (store : LocalStore) (data : Bytes) :
    LocalStore × StorageReceipt :=
  let h := sha data
  let tx := "local-" ++ h.take 32
  ((tx, data) :: store, ⟨tx, data.length, h⟩)

/-- LocalArweaveStore.download: KeyError for an unknown transaction id. -/
def localDownload (store : LocalStore) (tx_id : String) : Except String Bytes :=
  match store.find? (fun p => p.1 == tx_id) with
  | some p => .ok p.2
  | none => .error ("Transaction " ++ tx_id ++ " not found in local store")

/-- The soul as mutated by full_ceremony before encoding: the Merkle root
over its fragments stored under "merkle_root" in its metadata entries. -/
def ceremony_soul (sha : HashFn) (dumps : DumpFn) (soul : Soul)
    (ms : List (String × Json)) : Soul :=
  ⟨soul.agent_id, soul.version, soul.fragments, soul.created_at,
   soul.model_origin,
   .obj (dictSet ms "merkle_root" (.str (compute_root sha dumps soul.fragments)))⟩

/-- ResurrectionProtocol.full_ceremony against the in-memory store: compute
the Merkle root, stash it in the metadata, encode, upload, then resurrect
from the receipt's transaction id.  Errors raised outside resurrect's
try/except (metadata item assignment on a non-dict, encode overflow)
propagate as Except errors. -/
def full_ceremony (loads : LoadFn) (decompress : DecompressFn)
    (aesDecrypt : DecryptFn) (now : Json) (sha : HashFn) (dumps : DumpFn)
    (compress : CompressFn) (aesEncrypt : EncryptFn) (key nonce : Bytes)
    (verify : Bool) (store : LocalStore) (soul : Soul) (elapsed_ms : Nat) :
    Except String (LocalStore × StorageReceipt × ResurrectionResult) :=
  match soul.metadata with
  | .obj ms =>
    let soulR := ceremony_soul sha dumps soul ms
    match encode dumps compress aesEncrypt key nonce soulR with
    | none => .error "OverflowError: int too big to convert"
    | some encrypted =>
      let up := localUpload sha store encrypted
      .ok (up.1, up.2,
        resurrect loads decompress aesDecrypt now sha dumps key verify
          (localDownload up.1) elapsed_ms up.2.tx_id)
  | _ => .error "TypeError: object does not support item assignment"

/-! ## Concrete instantiations of the external primitives

Used to evaluate the embedded functions on closed inputs (witnesses and
counterexamples).  They satisfy the pointwise round-trip laws the theorems
assume; the digest stand-ins render their input injectively, so distinct
inputs get distinct digests, as with the real collision-resistant hashes. -/

/-- Injective rendering of a byte string, standing in for a hex digest. -/
def shaD : HashFn := fun l => "sha256:" ++ String.join (l.map (fun n => toString n ++ "."))

/-- SHA-512 stand-in (the Shamir theorems hold for every digest value). -/
def sha512D : Sha512Fn := fun _ => List.range 64

/-- Canonical-dump stand-in (constant; the pointwise laws pin the parse). -/
def dumpsD : DumpFn := fun _ => "J"

/-- Compression stand-in: identity. -/
def compressD : CompressFn := fun b => b

/-- Decompression stand-in: inverse of compressD on every input. -/
def decompressD : DecompressFn := fun b => .ok b

/-- AEAD encryption stand-in: the plaintext itself. -/
def aesEncryptD : EncryptFn := fun _ _ plaintext _ => plaintext

/-- AEAD decryption stand-in: inverse of aesEncryptD on every input. -/
def aesDecryptD : DecryptFn := fun _ _ ciphertext _ => .ok ciphertext

/-- time.time() stand-in. -/
def nowD : Json := .num "0.0"

/-- A concrete fragment. -/
def fragW : SoulFragment :=
  ⟨.str "personality", .str "tone", .str "warm", .num "1.0", .num "0.0", .str ""⟩

/-- A second concrete fragment. -/
def fragW2 : SoulFragment :=
  ⟨.str "values", .str "honesty", .num "0.9", .num "1.0", .num "0.0", .str ""⟩

/-- A third concrete fragment. -/
def fragW3 : SoulFragment :=
  ⟨.str "memories", .str "origin", .arr [.str "x"], .num "0.8", .num "0.0", .str ""⟩

/-- A concrete soul with one fragment. -/
def soulW : Soul :=
  ⟨.str "agent-1", .num "1", [fragW], .num "0.0", .str "", .obj []⟩

/-- A concrete soul with three fragments (end-to-end scenario shape). -/
def soulW3 : Soul :=
  ⟨.str "agent-3", .num "1", [fragW, fragW2, fragW3], .num "0.0", .str "", .obj []⟩

/-- JSON parse stand-in recovering the canonical tree of soulW. -/
def loadsW : LoadFn := fun _ => .ok (soulJson soulW)

/-- The ceremony soul of soulW3 under the stand-in primitives. -/
def soulW3R : Soul := ceremony_soul shaD dumpsD soulW3 []

/-- JSON parse stand-in recovering the canonical tree of soulW3R. -/
def loadsW3 : LoadFn := fun _ => .ok (soulJson soulW3R)

/-- A concrete 32-byte key with nonzero bytes. -/
def keyW : Bytes := List.replicate 32 1

/-- A concrete 12-byte nonce. -/
def nonceW : Bytes := List.replicate 12 0

/-- The share list of the claim-C2 counterexample: split with threshold 2
and 258 shares (share indices 1 and 258 coincide modulo the field prime). -/
def sharesC2 : List KeyShare :=
  match split shaD sha512D keyW 2 258 with
  | .ok kv => kv.2
  | .error _ => []

/-- Payload of the claim-C5 failing input: a well-formed header whose
plaintext deserializes to a JSON object without the "agent_id" key. -/
def dataC5 : Bytes := MAGIC ++ [1] ++ nonceW ++ be4 2 ++ [9, 9]

/-- Decompression stand-in for the C5 failing input (2 bytes, matching the
recorded pre-compression size). -/
def decompressC5 : DecompressFn := fun _ => .ok [7, 7]

/-- JSON parse stand-in for the C5 failing input: the empty object. -/
def loadsC5 : LoadFn := fun _ => .ok (.obj [])

/-- A download stand-in whose exception stringifies to the empty string
(e.g. raise Exception("")), for the C7 counterexample. -/
def downloadEmptyErr : String → Except String Bytes := fun _ => .error ""

/-- A minimal well-formed payload for which the stand-in primitives make
decode succeed with soulW. -/
def dataC10 : Bytes := MAGIC ++ [1] ++ nonceW ++ be4 1 ++ [0]

/-- A download stand-in returning dataC10. -/
def downloadC10 : String → Except String Bytes := fun _ => .ok dataC10

/-! ## Proof-side auxiliary: the Shamir polynomial over GF(257) -/

/-- The prime field of the default ShamirKeyManager. -/
abbrev F257 := ZMod 257

instance fact_prime_257 : Fact (Nat.Prime 257) := ⟨by norm_num⟩

/-- The polynomial over GF(257) with the given (least-significant-first)
coefficient list: the ghost counterpart of eval_poly. -/
noncomputable def polyOf : List Nat → Polynomial F257
  | [] => 0
  | c :: cs => Polynomial.C (c : F257) + Polynomial.X * polyOf cs

/-! ## Merkle lemmas -/

theorem xor_one_eq (n : Nat) : n ^^^ 1 = 2 * (n / 2) + (1 - n % 2) := by
  apply Nat.eq_of_testBit_eq
  intro i
  cases i with
  | zero =>
    simp only [Nat.testBit_xor, Nat.testBit_zero]
    rcases Nat.mod_two_eq_zero_or_one n with h | h <;>
      simp [h, Nat.add_mod, Nat.mul_mod_right]
  | succ i =>
    rw [Nat.testBit_xor, Nat.testBit_succ n i, Nat.testBit_succ 1 i,
        Nat.testBit_succ _ i]
    have h1 : (1 : Nat) / 2 = 0 := rfl
    have h2 : (2 * (n / 2) + (1 - n % 2)) / 2 = n / 2 := by omega
    rw [h1, h2]
    simp [Nat.zero_testBit]

theorem padEven_eq_or (l : List String) :
    padEven l = l ∨ ∃ a, padEven l = l ++ [a] := by
  rw [padEven]
  split
  · rcases hl : l.getLast? with _ | last
    · left; simp [hl]
    · right; exact ⟨last, by simp [hl]⟩
  · left; rfl

theorem getD_padEven (l : List String) (i : Nat) (hi : i < l.length) :
    (padEven l).getD i "" = l.getD i "" := by
  rcases padEven_eq_or l with h | ⟨a, h⟩
  · rw [h]
  · rw [h, List.getD_append _ _ _ _ hi]

theorem padEven_even (l : List String) (h : l.length % 2 = 0) :
    padEven l = l := by
  rw [padEven, if_neg]
  omega

theorem padEven_idem (l : List String) : padEven (padEven l) = padEven l :=
  padEven_even _ (by rw [padEven_length]; omega)

theorem pairUp_getD (sha : HashFn) :
    ∀ (l : List String) (k : Nat), 2 * k + 1 < l.length →
      (pairUp sha l).getD k "" =
        node_hash sha (l.getD (2 * k) "") (l.getD (2 * k + 1) "")
  | [], _, h => by simp at h
  | [_], _, h => by simp only [List.length_cons, List.length_nil] at h; omega
  | _ :: _ :: rest, 0, _ => by simp [pairUp]
  | a :: b :: rest, k + 1, h => by
    have hb : 2 * k + 1 < rest.length := by
      simp only [List.length_cons] at h; omega
    have e1 : 2 * (k + 1) = 2 * k + 1 + 1 := by ring
    rw [e1]
    simp only [pairUp, List.getD_cons_succ]
    exact pairUp_getD sha rest k hb

theorem build_tree_step (sha : HashFn) (l : List String)
    (h : ¬ l.length ≤ 1) :
    build_tree sha l = build_tree sha (pairUp sha (padEven l)) := by
  conv_lhs => rw [build_tree]
  rw [dif_neg h]

theorem build_tree_padEven (sha : HashFn) (l : List String)
    (h2 : 2 ≤ l.length) :
    build_tree sha (padEven l) = build_tree sha l := by
  by_cases he : l.length % 2 = 0
  · rw [padEven_even l he]
  · rw [build_tree_step sha (padEven l) (by rw [padEven_length]; omega),
        build_tree_step sha l (by omega), padEven_idem]

/-- Core invariant: folding the node at the tracked index with the
collected siblings reproduces the root built from the level. -/
theorem collect_fold (sha : HashFn) (n : Nat) :
    ∀ (level : List String) (index : Nat), level.length = n →
      0 < level.length → index < level.length →
      (collect_siblings sha level index).foldl
        (fun current p =>
          if p.2 == "right" then node_hash sha current p.1
          else node_hash sha p.1 current)
        (level.getD index "") = build_tree sha level := by
  induction n using Nat.strong_induction_on with
  | _ n ih =>
  intro level index hn h0 hi
  by_cases h1 : level.length ≤ 1
  · rw [collect_siblings, dif_pos h1, build_tree, dif_pos h1]
    have hz : index = 0 := by omega
    subst hz
    cases level with
    | nil => simp at h0
    | cons a t => simp
  · rw [collect_siblings, dif_neg h1, build_tree, dif_neg h1]
    have hlv : (padEven level).length = level.length + level.length % 2 :=
      padEven_length level
    have hsib_lt : index ^^^ 1 < (padEven level).length := by
      rw [xor_one_eq]; omega
    rw [if_pos hsib_lt]
    simp only [List.singleton_append, List.foldl_cons]
    have hpair : index / 2 < (pairUp sha (padEven level)).length := by
      rw [pairUp_length]; omega
    have hstep :
        (if (if index % 2 = 0 then "right" else "left") == "right" then
          node_hash sha (level.getD index "")
            ((padEven level).getD (index ^^^ 1) "")
        else
          node_hash sha ((padEven level).getD (index ^^^ 1) "")
            (level.getD index "")) =
          (pairUp sha (padEven level)).getD (index / 2) "" := by
      have hgl : level.getD index "" = (padEven level).getD index "" :=
        (getD_padEven level index hi).symm
      rw [hgl, pairUp_getD sha (padEven level) (index / 2)
        (by rw [pairUp_length] at hpair; omega)]
      by_cases hpar : index % 2 = 0
      · rw [if_pos hpar]
        have hbeq : (("right" : String) == "right") = true := rfl
        rw [if_pos hbeq]
        have hidx : index = 2 * (index / 2) := by omega
        have hx : index ^^^ 1 = 2 * (index / 2) + 1 := by
          rw [xor_one_eq]; omega
        rw [hx]
        exact congrArg (fun j => node_hash sha ((padEven level).getD j "")
          ((padEven level).getD (2 * (index / 2) + 1) "")) hidx
      · rw [if_neg hpar]
        have hbeq : (("left" : String) == "right") = false := rfl
        rw [hbeq, if_neg (by simp)]
        have hidx : index = 2 * (index / 2) + 1 := by omega
        have hx : index ^^^ 1 = 2 * (index / 2) := by
          rw [xor_one_eq]; omega
        rw [hx]
        exact congrArg (fun j => node_hash sha
          ((padEven level).getD (2 * (index / 2)) "")
          ((padEven level).getD j "")) hidx
    rw [hstep]
    exact ih (pairUp sha (padEven level)).length
      (by rw [pairUp_length, padEven_length]; omega)
      (pairUp sha (padEven level)) (index / 2) rfl
      (by rw [pairUp_length]; omega) hpair

theorem getD_map_leaf (sha : HashFn) (dumps : DumpFn) (leaves : List Json)
    (i : Nat) (hi : i < leaves.length) :
    (leaves.map (leaf_hash sha dumps)).getD i "" =
      leaf_hash sha dumps (leaves.getD i .null) := by
  rw [List.getD_eq_getElem?_getD, List.getElem?_map,
      List.getD_eq_getElem?_getD, List.getElem?_eq_getElem hi]
  simp

/-- Claim C3: for every hash and canonical-dump function, every non-empty
fragment sequence and every valid index, verify_proof accepts the proof
produced by prove_fragment. -/
theorem C3_merkle_proof_round_trip (sha : HashFn) (dumps : DumpFn)
    (frags : List SoulFragment) (i : Nat)
    (h0 : 0 < frags.length) (hi : i < frags.length) :
    verify_proof sha (prove_fragment sha dumps frags i) = true := by
  unfold verify_proof prove_fragment
  simp only []
  have hlen : (frags.map fragJson).length = frags.length := by
    simp
  have hlenh :
      ((frags.map fragJson).map (leaf_hash sha dumps)).length = frags.length := by
    simp
  have h0' : 0 < (padEven ((frags.map fragJson).map (leaf_hash sha dumps))).length := by
    rw [padEven_length]; omega
  have hi' : i < (padEven ((frags.map fragJson).map (leaf_hash sha dumps))).length := by
    rw [padEven_length]; omega
  have hstart :
      leaf_hash sha dumps ((frags.map fragJson).getD i .null) =
        (padEven ((frags.map fragJson).map (leaf_hash sha dumps))).getD i "" := by
    rw [getD_padEven _ _ (by omega), getD_map_leaf sha dumps _ i (by omega)]
  rw [hstart,
    collect_fold sha (padEven ((frags.map fragJson).map (leaf_hash sha dumps))).length
      _ i rfl h0' hi']
  exact beq_self_eq_true _

/-- Witness for C3 at a concrete three-fragment soul and index 1. -/
theorem C3_merkle_proof_round_trip_witness :
    0 < ([fragW, fragW2, fragW3] : List SoulFragment).length ∧
    1 < ([fragW, fragW2, fragW3] : List SoulFragment).length ∧
    verify_proof shaD (prove_fragment shaD dumpsD [fragW, fragW2, fragW3] 1) = true :=
  ⟨by decide, by decide,
   C3_merkle_proof_round_trip shaD dumpsD [fragW, fragW2, fragW3] 1
     (by decide) (by decide)⟩

theorem build_tree_single (sha : HashFn) (a : String) :
    build_tree sha [a] = a := by
  rw [build_tree, dif_pos (by simp)]
  rfl

theorem build_tree_pair (sha : HashFn) (a b : String) :
    build_tree sha [a, b] = node_hash sha a b := by
  rw [build_tree, dif_neg (by simp)]
  have hpe : padEven [a, b] = [a, b] := by simp [padEven]
  rw [hpe]
  have hpu : pairUp sha [a, b] = [node_hash sha a b] := rfl
  rw [hpu, build_tree_single]

/-- Counterexample to claim C4 as stated: for a single-fragment sequence the
proof generator pads the leaf level to two copies and roots the proof at
node_hash(leaf, leaf), while compute_root returns the bare leaf hash. -/
theorem C4_counterexample :
    (prove_fragment shaD dumpsD [fragW] 0).root ≠
      compute_root shaD dumpsD [fragW] := by
  unfold prove_fragment compute_root
  simp only []
  have hleaves : ([fragW] : List SoulFragment).map fragJson = [fragJson fragW] := rfl
  rw [hleaves]
  have hmap : ([fragJson fragW] : List Json).map (leaf_hash shaD dumpsD) =
      [leaf_hash shaD dumpsD (fragJson fragW)] := rfl
  rw [hmap]
  have hpe : padEven [leaf_hash shaD dumpsD (fragJson fragW)] =
      [leaf_hash shaD dumpsD (fragJson fragW),
       leaf_hash shaD dumpsD (fragJson fragW)] := by simp [padEven]
  rw [hpe, build_tree_pair, if_neg (by decide), build_tree_single]
  decide

/-- Claim C4 (amended): for fragment sequences of length at least 2 the
root recorded in the proof equals the committed root, because proof
generation walks the same level-by-level construction with duplicate-last
padding.  (For a single fragment the pre-padding in prove_fragment makes
the proof root node_hash(leaf, leaf) while compute_root returns the leaf.) -/
theorem C4_proof_root_amended (sha : HashFn) (dumps : DumpFn)
    (frags : List SoulFragment) (i : Nat)
    (h2 : 2 ≤ frags.length) (_hi : i < frags.length) :
    (prove_fragment sha dumps frags i).root = compute_root sha dumps frags := by
  unfold prove_fragment compute_root
  simp only []
  rw [if_neg (by simp [List.isEmpty_iff]; intro h; rw [h] at h2; simp at h2)]
  exact build_tree_padEven sha _ (by simp; omega)

/-- Witness for the amended C4 at a concrete three-fragment soul. -/
theorem C4_proof_root_amended_witness :
    2 ≤ ([fragW, fragW2, fragW3] : List SoulFragment).length ∧
    2 < ([fragW, fragW2, fragW3] : List SoulFragment).length ∧
    (prove_fragment shaD dumpsD [fragW, fragW2, fragW3] 2).root =
      compute_root shaD dumpsD [fragW, fragW2, fragW3] :=
  ⟨by decide, by decide,
   C4_proof_root_amended shaD dumpsD [fragW, fragW2, fragW3] 2
     (by decide) (by decide)⟩

/-! ## Codec lemmas -/

theorem jsonToFragment_fragJson (now : Json) (f : SoulFragment) :
    jsonToFragment now (fragJson f) = .ok f := by
  rfl

theorem mapM_fragJson (now : Json) :
    ∀ fs : List SoulFragment,
      (fs.map fragJson).mapM (jsonToFragment now) = .ok fs
  | [] => rfl
  | f :: fs => by
    rw [List.map_cons, List.mapM_cons, jsonToFragment_fragJson,
        mapM_fragJson now fs]
    rfl

theorem reconstruct_soulJson (now : Json) (s : Soul) :
    reconstruct now (soulJson s) = .ok s := by
  have h : reconstruct now (soulJson s) =
      (match (s.fragments.map fragJson).mapM (jsonToFragment now) with
        | .error e => (.error e : Except DecodeErr Soul)
        | .ok fragments =>
          .ok ⟨s.agent_id, s.version, fragments, s.created_at,
               s.model_origin, s.metadata⟩) := rfl
  rw [h, mapM_fragJson]

theorem beToNat_be4 (n : Nat) (h : n < 2 ^ 32) : beToNat (be4 n) = n := by
  simp only [beToNat, be4, List.foldl_cons, List.foldl_nil]
  omega

/-- Round-trip core: decoding an encoded payload with the same key
recovers the soul, given the pointwise inverse laws of the external
primitives at the values used. -/
theorem decode_encode (loads : LoadFn) (decompress : DecompressFn)
    (aesDecrypt : DecryptFn) (now : Json) (dumps : DumpFn)
    (compress : CompressFn) (aesEncrypt : EncryptFn)
    (key nonce : Bytes) (s : Soul) (data : Bytes)
    (hn : nonce.length = 12)
    (henc : encode dumps compress aesEncrypt key nonce s = some data)
    (haes : aesDecrypt key nonce
      (aesEncrypt key nonce (compress (asciiBytes (dumps (soulJson s)))) MAGIC)
      MAGIC = .ok (compress (asciiBytes (dumps (soulJson s)))))
    (hzip : decompress (compress (asciiBytes (dumps (soulJson s)))) =
      .ok (asciiBytes (dumps (soulJson s))))
    (hloads : loads (asciiBytes (dumps (soulJson s))) = .ok (soulJson s)) :
    decode loads decompress aesDecrypt now key data = .ok s := by
  unfold encode at henc
  simp only [] at henc
  split at henc
  case isFalse => exact absurd henc (by simp)
  case isTrue hlt =>
  have hdata := (Option.some.inj henc).symm
  subst hdata
  set raw := asciiBytes (dumps (soulJson s)) with hraw
  set ct := aesEncrypt key nonce (compress raw) MAGIC with hct
  have h18 : MAGIC ++ [FORMAT_VERSION] ++ nonce ++ be4 raw.length ++ ct =
      ((MAGIC ++ [FORMAT_VERSION]) ++ nonce) ++ (be4 raw.length ++ ct) := by
    simp [List.append_assoc]
  have h6 : MAGIC ++ [FORMAT_VERSION] ++ nonce ++ be4 raw.length ++ ct =
      (MAGIC ++ [FORMAT_VERSION]) ++ (nonce ++ (be4 raw.length ++ ct)) := by
    simp [List.append_assoc]
  have h5 : MAGIC ++ [FORMAT_VERSION] ++ nonce ++ be4 raw.length ++ ct =
      MAGIC ++ ([FORMAT_VERSION] ++ (nonce ++ (be4 raw.length ++ ct))) := by
    simp [List.append_assoc]
  have hlen : (MAGIC ++ [FORMAT_VERSION] ++ nonce ++ be4 raw.length ++ ct).length =
      22 + ct.length := by
    simp [MAGIC, be4, hn]
    omega
  have htake5 : (MAGIC ++ [FORMAT_VERSION] ++ nonce ++ be4 raw.length ++ ct).take 5 =
      MAGIC := by
    rw [h5, List.take_left' (by rfl)]
  have hgetD5 : (MAGIC ++ [FORMAT_VERSION] ++ nonce ++ be4 raw.length ++ ct).getD 5 0 =
      FORMAT_VERSION := by
    rw [h5, List.getD_append_right _ _ _ _ (by simp [MAGIC])]
    simp [MAGIC]
  have hdrop6 : (MAGIC ++ [FORMAT_VERSION] ++ nonce ++ be4 raw.length ++ ct).drop 6 =
      nonce ++ (be4 raw.length ++ ct) := by
    rw [h6, List.drop_left' (by simp [MAGIC])]
  have hnonce : ((MAGIC ++ [FORMAT_VERSION] ++ nonce ++ be4 raw.length ++ ct).drop 6).take 12 =
      nonce := by
    rw [hdrop6, List.take_left' hn]
  have hdrop18 : (MAGIC ++ [FORMAT_VERSION] ++ nonce ++ be4 raw.length ++ ct).drop 18 =
      be4 raw.length ++ ct := by
    rw [h18, List.drop_left' (by simp [MAGIC, hn])]
  have hsize : ((MAGIC ++ [FORMAT_VERSION] ++ nonce ++ be4 raw.length ++ ct).drop 18).take 4 =
      be4 raw.length := by
    rw [hdrop18, List.take_left' (by simp [be4])]
  have hdrop22 : (MAGIC ++ [FORMAT_VERSION] ++ nonce ++ be4 raw.length ++ ct).drop 22 =
      ct := by
    rw [List.drop_left' (by simp [MAGIC, be4, hn])]
  unfold decode
  rw [if_neg (by rw [hlen]; omega), if_neg (by rw [htake5]; simp),
      if_neg (by rw [hgetD5]; simp)]
  rw [hnonce, hsize, hdrop22]
  simp [haes, hzip, hloads, beToNat_be4 raw.length hlt, reconstruct_soulJson]

/-- Claim C1: codec round trip.  For every key, every 12-byte nonce and
every soul, decoding the encoded payload with the same key returns exactly
the original soul (all fields, the fragment sequence in its original
order), assuming the pointwise inverse laws of the external primitives
(AEAD decryption inverts encryption, zlib decompression inverts
compression, json.loads inverts json.dumps) at the values this record
produces, and that the canonical serialization fits the 4-byte length
field. -/
theorem C1_codec_round_trip (loads : LoadFn) (decompress : DecompressFn)
    (aesDecrypt : DecryptFn) (now : Json) (dumps : DumpFn)
    (compress : CompressFn) (aesEncrypt : EncryptFn)
    (key nonce : Bytes) (s : Soul)
    (hn : nonce.length = 12)
    (hlt : (asciiBytes (dumps (soulJson s))).length < 2 ^ 32)
    (haes : aesDecrypt key nonce
      (aesEncrypt key nonce (compress (asciiBytes (dumps (soulJson s)))) MAGIC)
      MAGIC = .ok (compress (asciiBytes (dumps (soulJson s)))))
    (hzip : decompress (compress (asciiBytes (dumps (soulJson s)))) =
      .ok (asciiBytes (dumps (soulJson s))))
    (hloads : loads (asciiBytes (dumps (soulJson s))) = .ok (soulJson s)) :
    ∃ data, encode dumps compress aesEncrypt key nonce s = some data ∧
      decode loads decompress aesDecrypt now key data = .ok s := by
  have henc : encode dumps compress aesEncrypt key nonce s =
      some (MAGIC ++ [FORMAT_VERSION] ++ nonce ++
        be4 (asciiBytes (dumps (soulJson s))).length ++
        aesEncrypt key nonce (compress (asciiBytes (dumps (soulJson s)))) MAGIC) := by
    unfold encode
    rw [if_pos hlt]
  exact ⟨_, henc, decode_encode loads decompress aesDecrypt now dumps compress
    aesEncrypt key nonce s _ hn henc haes hzip hloads⟩

/-- Witness for C1 at a concrete soul, key and nonce, with stand-in
primitives satisfying the inverse laws. -/
theorem C1_codec_round_trip_witness :
    nonceW.length = 12 ∧
    (asciiBytes (dumpsD (soulJson soulW))).length < 2 ^ 32 ∧
    (∃ data, encode dumpsD compressD aesEncryptD keyW nonceW soulW = some data ∧
      decode loadsW decompressD aesDecryptD nowD keyW data = .ok soulW) :=
  ⟨by decide, by decide,
   C1_codec_round_trip loadsW decompressD aesDecryptD nowD dumpsD compressD
     aesEncryptD keyW nonceW soulW (by decide) (by decide) rfl rfl rfl⟩

/-- Claim C6: wire format.  Every encoded payload starts with the 5-byte
ASCII magic "ATMAN", then version byte 1, then the 12-byte nonce, then a
4-byte big-endian integer equal to the byte length of the canonical JSON
serialization before compression, then the AEAD output; and it is at least
22 bytes long. -/
theorem C6_wire_format (dumps : DumpFn) (compress : CompressFn)
    (aesEncrypt : EncryptFn) (key nonce : Bytes) (s : Soul)
    (hn : nonce.length = 12)
    (hlt : (asciiBytes (dumps (soulJson s))).length < 2 ^ 32) :
    ∃ data, encode dumps compress aesEncrypt key nonce s = some data ∧
      data.take 5 = MAGIC ∧
      data.getD 5 0 = FORMAT_VERSION ∧
      (data.drop 6).take 12 = nonce ∧
      beToNat ((data.drop 18).take 4) = (asciiBytes (dumps (soulJson s))).length ∧
      data.drop 22 =
        aesEncrypt key nonce (compress (asciiBytes (dumps (soulJson s)))) MAGIC ∧
      22 ≤ data.length := by
  set raw := asciiBytes (dumps (soulJson s)) with hraw
  set ct := aesEncrypt key nonce (compress raw) MAGIC with hct
  have henc : encode dumps compress aesEncrypt key nonce s =
      some (MAGIC ++ [FORMAT_VERSION] ++ nonce ++ be4 raw.length ++ ct) := by
    unfold encode
    rw [if_pos hlt]
  have h18 : MAGIC ++ [FORMAT_VERSION] ++ nonce ++ be4 raw.length ++ ct =
      ((MAGIC ++ [FORMAT_VERSION]) ++ nonce) ++ (be4 raw.length ++ ct) := by
    simp [List.append_assoc]
  have h6 : MAGIC ++ [FORMAT_VERSION] ++ nonce ++ be4 raw.length ++ ct =
      (MAGIC ++ [FORMAT_VERSION]) ++ (nonce ++ (be4 raw.length ++ ct)) := by
    simp [List.append_assoc]
  have h5 : MAGIC ++ [FORMAT_VERSION] ++ nonce ++ be4 raw.length ++ ct =
      MAGIC ++ ([FORMAT_VERSION] ++ (nonce ++ (be4 raw.length ++ ct))) := by
    simp [List.append_assoc]
  refine ⟨_, henc, ?_, ?_, ?_, ?_, ?_, ?_⟩
  · rw [h5, List.take_left' (by rfl)]
  · rw [h5, List.getD_append_right _ _ _ _ (by simp [MAGIC])]
    simp [MAGIC]
  · rw [h6, List.drop_left' (by simp [MAGIC]), List.take_left' hn]
  · rw [h18, List.drop_left' (by simp [MAGIC, hn]),
        List.take_left' (by simp [be4]), beToNat_be4 raw.length hlt]
  · rw [List.drop_left' (by simp [MAGIC, be4, hn])]
  · simp [MAGIC, be4, hn]
    omega

/-- Witness for C6 at a concrete soul, key and nonce. -/
theorem C6_wire_format_witness :
    nonceW.length = 12 ∧
    (asciiBytes (dumpsD (soulJson soulW))).length < 2 ^ 32 ∧
    (∃ data, encode dumpsD compressD aesEncryptD keyW nonceW soulW = some data ∧
      data.take 5 = MAGIC ∧
      data.getD 5 0 = FORMAT_VERSION ∧
      (data.drop 6).take 12 = nonceW ∧
      beToNat ((data.drop 18).take 4) =
        (asciiBytes (dumpsD (soulJson soulW))).length ∧
      data.drop 22 =
        aesEncryptD keyW nonceW
          (compressD (asciiBytes (dumpsD (soulJson soulW)))) MAGIC ∧
      22 ≤ data.length) :=
  ⟨by decide, by decide,
   C6_wire_format dumpsD compressD aesEncryptD keyW nonceW soulW
     (by decide) (by decide)⟩

/-- Claim C5 (code bug demonstration): a payload that authenticates,
decompresses and JSON-parses to an object without the "agent_id" key makes
decode fail with a bare KeyError from _reconstruct, which is not one of the
classified SoulDecodeError kinds — the failure escapes unclassified. -/
theorem C5_unclassified_escape :
    decode loadsC5 decompressC5 aesDecryptD nowD keyW dataC5 =
      .error (.keyError "agent_id") ∧
    (DecodeErr.keyError "agent_id").isClassified = false :=
  ⟨rfl, rfl⟩

/-! ## Orchestrator lemmas -/

theorem string_append_ne_empty (s t : String) (hs : s.length ≠ 0) :
    s ++ t ≠ "" := by
  intro h
  have hl := congrArg String.length h
  rw [String.length_append] at hl
  simp at hl
  omega

theorem string_append_ne_empty' (s t : String) (ht : t.length ≠ 0) :
    s ++ t ≠ "" := by
  intro h
  have hl := congrArg String.length h
  rw [String.length_append] at hl
  simp at hl
  omega

theorem toResultError_ne_empty (e : DecodeErr) : e.toResultError ≠ "" := by
  cases e <;>
    simp only [DecodeErr.toResultError, DecodeErr.isClassified,
      DecodeErr.pyMessage, if_true, if_false, Bool.false_eq_true,
      reduceIte] <;>
    first
      | decide
      | exact string_append_ne_empty _ _ (by decide)
      | exact string_append_ne_empty' _ _ (by decide)

/-- Claim C7 (amended): resurrect never raises.  (a) A download failure
whose exception message is non-empty yields success = false with that
message as the (non-empty) error and the elapsed time carried; (b) every
decode failure yields success = false with a provably non-empty error
description and the elapsed time; (c) when decode succeeds but the root
recomputed over the decoded fragments differs from the truthy merkle_root
stored in the decoded metadata, the result is success = true with
integrity_verified = false.  (The original claim's unconditional
non-emptiness fails only for a store exception stringifying to "".) -/
theorem C7_error_containment_amended :
    (∀ (loads : LoadFn) (decompress : DecompressFn) (aesDecrypt : DecryptFn)
      (now : Json) (sha : HashFn) (dumps : DumpFn) (key : Bytes) (verify : Bool)
      (download : String → Except String Bytes) (elapsed_ms : Nat)
      (tx_id : String) (e : String),
      download tx_id = .error e → e ≠ "" →
      resurrect loads decompress aesDecrypt now sha dumps key verify download
        elapsed_ms tx_id = ⟨false, none, tx_id, false, elapsed_ms, e, []⟩) ∧
    (∀ (loads : LoadFn) (decompress : DecompressFn) (aesDecrypt : DecryptFn)
      (now : Json) (sha : HashFn) (dumps : DumpFn) (key : Bytes) (verify : Bool)
      (download : String → Except String Bytes) (elapsed_ms : Nat)
      (tx_id : String) (data : Bytes) (de : DecodeErr),
      download tx_id = .ok data →
      decode loads decompress aesDecrypt now key data = .error de →
      resurrect loads decompress aesDecrypt now sha dumps key verify download
        elapsed_ms tx_id =
        ⟨false, none, tx_id, false, elapsed_ms, de.toResultError, []⟩ ∧
      de.toResultError ≠ "") ∧
    (∀ (loads : LoadFn) (decompress : DecompressFn) (aesDecrypt : DecryptFn)
      (now : Json) (sha : HashFn) (dumps : DumpFn) (key : Bytes)
      (download : String → Except String Bytes) (elapsed_ms : Nat)
      (tx_id : String) (data : Bytes) (soul : Soul)
      (ms : List (String × Json)) (stored : Json),
      download tx_id = .ok data →
      decode loads decompress aesDecrypt now key data = .ok soul →
      soul.metadata = .obj ms →
      jget ms "merkle_root" = some stored →
      stored.truthy = true →
      strEqJson (compute_root sha dumps soul.fragments) stored = false →
      (resurrect loads decompress aesDecrypt now sha dumps key true download
        elapsed_ms tx_id).success = true ∧
      (resurrect loads decompress aesDecrypt now sha dumps key true download
        elapsed_ms tx_id).integrity_verified = false) := by
  refine ⟨?_, ?_, ?_⟩
  · intro loads decompress aesDecrypt now sha dumps key verify download
      elapsed_ms tx_id e hdl _he
    unfold resurrect
    rw [hdl]
  · intro loads decompress aesDecrypt now sha dumps key verify download
      elapsed_ms tx_id data de hdl hdec
    refine ⟨?_, toResultError_ne_empty de⟩
    unfold resurrect
    rw [hdl]
    simp only [hdec]
  · intro loads decompress aesDecrypt now sha dumps key download elapsed_ms
      tx_id data soul ms stored hdl hdec hm hj ht hne
    unfold resurrect
    rw [hdl]
    simp only [hdec, hm, if_true, hj, ht, hne]
    simp

/-- Counterexample to the unconditional non-emptiness in claim C7: a store
exception stringifying to "" is propagated verbatim, so the failure result
carries an empty error description. -/
theorem C7_counterexample :
    (resurrect loadsW decompressD aesDecryptD nowD shaD dumpsD keyW true
      downloadEmptyErr 5 "tx").success = false ∧
    (resurrect loadsW decompressD aesDecryptD nowD shaD dumpsD keyW true
      downloadEmptyErr 5 "tx").error = "" :=
  ⟨rfl, rfl⟩

/-- Witness for the amended C7 applying its download-failure clause at a
concrete non-empty exception message. -/
theorem C7_error_containment_amended_witness :
    ((fun _ : String => (.error "boom" : Except String Bytes)) "tx" =
      .error "boom") ∧
    ("boom" : String) ≠ "" ∧
    resurrect loadsW decompressD aesDecryptD nowD shaD dumpsD keyW true
      (fun _ => .error "boom") 7 "tx" =
      ⟨false, none, "tx", false, 7, "boom", []⟩ :=
  ⟨rfl, by decide,
   C7_error_containment_amended.1 loadsW decompressD aesDecryptD nowD shaD
     dumpsD keyW true (fun _ => .error "boom") 7 "tx" "boom" rfl (by decide)⟩

/-- Claim C10 (implicit): when decode succeeds and either the orchestrator
was built with verify_integrity = false, or the decoded metadata has no
"merkle_root" key, or maps it to a falsy value, resurrect reports
integrity_verified = true even though no Merkle comparison ran. -/
theorem C10_integrity_flag_skipped (loads : LoadFn)
    (decompress : DecompressFn) (aesDecrypt : DecryptFn) (now : Json)
    (sha : HashFn) (dumps : DumpFn) (key : Bytes) (verify : Bool)
    (download : String → Except String Bytes) (elapsed_ms : Nat)
    (tx_id : String) (data : Bytes) (soul : Soul)
    (hdl : download tx_id = .ok data)
    (hdec : decode loads decompress aesDecrypt now key data = .ok soul)
    (hskip : verify = false ∨
      (∃ ms, soul.metadata = .obj ms ∧ jget ms "merkle_root" = none) ∨
      (∃ ms stored, soul.metadata = .obj ms ∧
        jget ms "merkle_root" = some stored ∧ stored.truthy = false)) :
    (resurrect loads decompress aesDecrypt now sha dumps key verify download
      elapsed_ms tx_id).success = true ∧
    (resurrect loads decompress aesDecrypt now sha dumps key verify download
      elapsed_ms tx_id).integrity_verified = true := by
  unfold resurrect
  rw [hdl]
  simp only [hdec]
  rcases hskip with rfl | ⟨ms, hm, hj⟩ | ⟨ms, stored, hm, hj, ht⟩
  · simp
  · cases verify
    · simp
    · simp only [hm, if_true, hj]
      simp
  · cases verify
    · simp
    · simp only [hm, if_true, hj, ht]
      simp

/-- Witness for C10 with verify_integrity = false at a concrete payload. -/
theorem C10_integrity_flag_skipped_witness :
    downloadC10 "t" = .ok dataC10 ∧
    decode loadsW decompressD aesDecryptD nowD keyW dataC10 = .ok soulW ∧
    (resurrect loadsW decompressD aesDecryptD nowD shaD dumpsD keyW false
      downloadC10 3 "t").success = true ∧
    (resurrect loadsW decompressD aesDecryptD nowD shaD dumpsD keyW false
      downloadC10 3 "t").integrity_verified = true := by
  refine ⟨rfl, rfl, ?_⟩
  exact C10_integrity_flag_skipped loadsW decompressD aesDecryptD nowD shaD
    dumpsD keyW false downloadC10 3 "t" dataC10 soulW rfl rfl (Or.inl rfl)

theorem find?_map_set (k : String) (v : Json) :
    ∀ ps : List (String × Json), ps.any (fun p => p.1 == k) = true →
      (ps.map (fun p => if p.1 == k then (k, v) else p)).find?
        (fun p => p.1 == k) = some (k, v)
  | [], h => by simp at h
  | p :: ps, h => by
    by_cases hp : (p.1 == k) = true
    · rw [List.map_cons, if_pos hp,
          @List.find?_cons_of_pos _ (fun q => q.1 == k) (k, v) _ (by simp)]
    · have hps : ps.any (fun p => p.1 == k) = true := by
        simp only [List.any_cons] at h
        rcases Bool.or_eq_true_iff.mp h with h1 | h1
        · exact absurd h1 hp
        · exact h1
      rw [List.map_cons, if_neg hp,
          @List.find?_cons_of_neg _ (fun q => q.1 == k) p _ hp]
      exact find?_map_set k v ps hps

theorem find?_append_new (k : String) (v : Json) :
    ∀ ps : List (String × Json), (∀ p ∈ ps, (p.1 == k) = false) →
      (ps ++ [(k, v)]).find? (fun p => p.1 == k) = some (k, v)
  | [], _ => by simp
  | p :: ps, h => by
    have hp : (p.1 == k) = false := h p (by simp)
    rw [List.cons_append,
        @List.find?_cons_of_neg _ (fun q => q.1 == k) p _ (by simp [hp])]
    exact find?_append_new k v ps (fun q hq => h q (by simp [hq]))

/-- Python d[k] = v followed by d.get(k) returns v. -/
theorem jget_dictSet (ps : List (String × Json)) (k : String) (v : Json) :
    jget (dictSet ps k v) k = some v := by
  unfold jget dictSet
  by_cases h : ps.any (fun p => p.1 == k) = true
  · rw [if_pos h, find?_map_set k v ps h]
    rfl
  · rw [if_neg (by simpa using h), find?_append_new k v ps ?_]
    · rfl
    · intro p hp
      by_contra hc
      exact h (by simp only [List.any_eq_true]
                  exact ⟨p, hp, by simpa using hc⟩)

/-- Looking up a freshly stored transaction id in the local store. -/
theorem localDownload_cons (store : LocalStore) (tx : String) (data : Bytes) :
    localDownload ((tx, data) :: store) tx = .ok data := by
  unfold localDownload
  rw [@List.find?_cons_of_pos _ (fun q => q.1 == tx) (tx, data) _ (by simp)]

/-- Claim C9: full-ceremony self check against the in-memory store.  The
ceremony computes the Merkle root over the record's fragments, stores it in
the record's metadata, encodes and uploads, and the immediate resurrection
from the receipt's transaction id succeeds with integrity_verified = true
and a decoded record whose agent_id and fragment sequence equal the
input's.  The record's metadata must be a dict, the nonce 12 bytes, and
the external primitives satisfy their pointwise inverse laws at the
ceremony record. -/
theorem C9_full_ceremony (loads : LoadFn) (decompress : DecompressFn)
    (aesDecrypt : DecryptFn) (now : Json) (sha : HashFn) (dumps : DumpFn)
    (compress : CompressFn) (aesEncrypt : EncryptFn) (key nonce : Bytes)
    (verify : Bool) (store : LocalStore) (soul : Soul) (elapsed_ms : Nat)
    (ms : List (String × Json))
    (hm : soul.metadata = .obj ms)
    (hn : nonce.length = 12)
    (hlt : (asciiBytes (dumps (soulJson (ceremony_soul sha dumps soul ms)))).length
      < 2 ^ 32)
    (haes : aesDecrypt key nonce
      (aesEncrypt key nonce
        (compress (asciiBytes (dumps (soulJson (ceremony_soul sha dumps soul ms)))))
        MAGIC) MAGIC =
      .ok (compress (asciiBytes (dumps (soulJson (ceremony_soul sha dumps soul ms))))))
    (hzip : decompress
      (compress (asciiBytes (dumps (soulJson (ceremony_soul sha dumps soul ms))))) =
      .ok (asciiBytes (dumps (soulJson (ceremony_soul sha dumps soul ms)))))
    (hloads : loads (asciiBytes (dumps (soulJson (ceremony_soul sha dumps soul ms)))) =
      .ok (soulJson (ceremony_soul sha dumps soul ms))) :
    ∃ store' receipt res,
      full_ceremony loads decompress aesDecrypt now sha dumps compress
        aesEncrypt key nonce verify store soul elapsed_ms =
        .ok (store', receipt, res) ∧
      res.success = true ∧
      res.integrity_verified = true ∧
      res.soul = some (ceremony_soul sha dumps soul ms) ∧
      (ceremony_soul sha dumps soul ms).agent_id = soul.agent_id ∧
      (ceremony_soul sha dumps soul ms).fragments = soul.fragments ∧
      (ceremony_soul sha dumps soul ms).metadata =
        .obj (dictSet ms "merkle_root"
          (.str (compute_root sha dumps soul.fragments))) := by
  have henc : encode dumps compress aesEncrypt key nonce
      (ceremony_soul sha dumps soul ms) =
      some (MAGIC ++ [FORMAT_VERSION] ++ nonce ++
        be4 (asciiBytes (dumps (soulJson (ceremony_soul sha dumps soul ms)))).length ++
        aesEncrypt key nonce
          (compress (asciiBytes (dumps (soulJson (ceremony_soul sha dumps soul ms)))))
          MAGIC) := by
    unfold encode
    rw [if_pos hlt]
  set soulR := ceremony_soul sha dumps soul ms with hsoulR
  set dataR := MAGIC ++ [FORMAT_VERSION] ++ nonce ++
    be4 (asciiBytes (dumps (soulJson soulR))).length ++
    aesEncrypt key nonce (compress (asciiBytes (dumps (soulJson soulR)))) MAGIC
    with hdataR
  have hdec : decode loads decompress aesDecrypt now key dataR = .ok soulR :=
    decode_encode loads decompress aesDecrypt now dumps compress aesEncrypt
      key nonce soulR dataR hn henc haes hzip hloads
  have hres :
      (resurrect loads decompress aesDecrypt now sha dumps key verify
        (localDownload (("local-" ++ (sha dataR).take 32, dataR) :: store))
        elapsed_ms ("local-" ++ (sha dataR).take 32)).success = true ∧
      (resurrect loads decompress aesDecrypt now sha dumps key verify
        (localDownload (("local-" ++ (sha dataR).take 32, dataR) :: store))
        elapsed_ms ("local-" ++ (sha dataR).take 32)).integrity_verified = true ∧
      (resurrect loads decompress aesDecrypt now sha dumps key verify
        (localDownload (("local-" ++ (sha dataR).take 32, dataR) :: store))
        elapsed_ms ("local-" ++ (sha dataR).take 32)).soul = some soulR := by
    unfold resurrect
    rw [localDownload_cons]
    simp only [hdec]
    have hmeta : soulR.metadata =
        .obj (dictSet ms "merkle_root"
          (.str (compute_root sha dumps soul.fragments))) := rfl
    have hfrag : soulR.fragments = soul.fragments := rfl
    cases verify
    · simp
    · simp only [hmeta, if_true, jget_dictSet]
      by_cases hr : (Json.str (compute_root sha dumps soul.fragments)).truthy = true
      · simp only [hr, if_true, hfrag]
        simp [strEqJson]
      · simp only [Bool.not_eq_true] at hr
        simp only [hr]
        simp
  refine ⟨("local-" ++ (sha dataR).take 32, dataR) :: store,
    ⟨"local-" ++ (sha dataR).take 32, dataR.length, sha dataR⟩,
    resurrect loads decompress aesDecrypt now sha dumps key verify
      (localDownload (("local-" ++ (sha dataR).take 32, dataR) :: store))
      elapsed_ms ("local-" ++ (sha dataR).take 32),
    ?_, hres.1, hres.2.1, hres.2.2, rfl, rfl, rfl⟩
  simp only [full_ceremony, hm, henc, localUpload]

/-- Witness for C9 at a concrete three-fragment soul with the stand-in
primitives. -/
theorem C9_full_ceremony_witness :
    soulW3.metadata = .obj [] ∧
    nonceW.length = 12 ∧
    (∃ store' receipt res,
      full_ceremony loadsW3 decompressD aesDecryptD nowD shaD dumpsD
        compressD aesEncryptD keyW nonceW true [] soulW3 4 =
        .ok (store', receipt, res) ∧
      res.success = true ∧
      res.integrity_verified = true ∧
      res.soul = some (ceremony_soul shaD dumpsD soulW3 []) ∧
      (ceremony_soul shaD dumpsD soulW3 []).agent_id = soulW3.agent_id ∧
      (ceremony_soul shaD dumpsD soulW3 []).fragments = soulW3.fragments ∧
      (ceremony_soul shaD dumpsD soulW3 []).metadata =
        .obj (dictSet [] "merkle_root"
          (.str (compute_root shaD dumpsD soulW3.fragments)))) :=
  ⟨rfl, by decide,
   C9_full_ceremony loadsW3 decompressD aesDecryptD nowD shaD dumpsD
     compressD aesEncryptD keyW nonceW true [] soulW3 4 [] rfl (by decide)
     (by decide) rfl rfl rfl⟩

/-! ## SecretSharer error contract -/

/-- Claim C8: (a) split raises exactly when the key is not 32 bytes, the
threshold is below 2, or the threshold exceeds the share count; (b) combine
with fewer than 2 shares raises InsufficientShares; (c) combine over shares
carrying two or more distinct fingerprints raises MismatchedShareFingerprints
(a value independent of any interpolation — the guard precedes it in the
source); (d) with a single shared fingerprint, combine raises
ShareReconstructionFailed if and only if the fingerprint recomputed from the
assembled key differs from the shares' fingerprint. -/
theorem C8_secret_sharer_error_contract :
    (∀ (sha : HashFn) (sha512 : Sha512Fn) (key : Bytes)
      (threshold num_shares : Nat),
      (∃ e, split sha sha512 key threshold num_shares = .error e) ↔
        (key.length ≠ 32 ∨ threshold < 2 ∨ threshold > num_shares)) ∧
    (∀ (sha : HashFn) (shares : List KeyShare), shares.length < 2 →
      combine sha shares = .error .insufficientShares) ∧
    (∀ (sha : HashFn) (shares : List KeyShare), 2 ≤ shares.length →
      (∃ s1 ∈ shares, ∃ s2 ∈ shares, s1.fingerprint ≠ s2.fingerprint) →
      combine sha shares = .error .mismatchedFingerprints) ∧
    (∀ (sha : HashFn) (shares : List KeyShare), 2 ≤ shares.length →
      (∀ s ∈ shares,
        s.fingerprint = (shares.headD ⟨0, [], ""⟩).fingerprint) →
      (combine sha shares = .error .fingerprintMismatch ↔
        (sha (assemble_key shares 32)).take 16 ≠
          (shares.headD ⟨0, [], ""⟩).fingerprint)) := by
  refine ⟨?_, ?_, ?_, ?_⟩
  · intro sha sha512 key threshold num_shares
    unfold split
    split_ifs with h1 h2 h3
    · simp [h1]
    · simp [h1, h2]
    · simp [h1, h3]
    · simp [h1, h2, h3]
  · intro sha shares h
    unfold combine
    rw [if_pos h]
  · intro sha shares h2 ⟨s1, hs1, s2, hs2, hne⟩
    have hany : (shares.any
        (fun s => !(s.fingerprint == (shares.headD ⟨0, [], ""⟩).fingerprint)))
        = true := by
      rw [List.any_eq_true]
      by_cases hh : s1.fingerprint = (shares.headD ⟨0, [], ""⟩).fingerprint
      · refine ⟨s2, hs2, ?_⟩
        simp only [Bool.not_eq_true', beq_eq_false_iff_ne, ne_eq]
        exact fun hc => hne (hh.trans hc.symm)
      · refine ⟨s1, hs1, ?_⟩
        simp only [Bool.not_eq_true', beq_eq_false_iff_ne, ne_eq]
        exact hh
    unfold combine
    rw [if_neg (by omega)]
    simp only [hany, if_true]
  · intro sha shares h2 hall
    have hany : (shares.any
        (fun s => !(s.fingerprint == (shares.headD ⟨0, [], ""⟩).fingerprint)))
        = false := by
      rw [List.any_eq_false]
      intro s hs
      simp [hall s hs]
    unfold combine
    rw [if_neg (by omega)]
    simp only [hany, Bool.false_eq_true, if_false]
    split_ifs with hfp
    · simp only [true_iff]
      exact hfp
    · simp only [reduceCtorEq, false_iff, not_not]
      exact of_not_not hfp

/-- Witness for C8 applying the insufficient-shares and mismatched-
fingerprint clauses at concrete share lists. -/
theorem C8_secret_sharer_error_contract_witness :
    (([] : List KeyShare).length < 2 ∧
      combine shaD [] = .error .insufficientShares) ∧
    (2 ≤ ([⟨1, [], "aa"⟩, ⟨2, [], "bb"⟩] : List KeyShare).length ∧
      combine shaD [⟨1, [], "aa"⟩, ⟨2, [], "bb"⟩] =
        .error .mismatchedFingerprints) :=
  ⟨⟨by decide, C8_secret_sharer_error_contract.2.1 shaD [] (by decide)⟩,
   ⟨by decide, C8_secret_sharer_error_contract.2.2.1 shaD
      [⟨1, [], "aa"⟩, ⟨2, [], "bb"⟩] (by decide)
      ⟨⟨1, [], "aa"⟩, by simp, ⟨2, [], "bb"⟩, by simp, by decide⟩⟩⟩

/-! ## Shamir correctness: casting the mod-257 integer arithmetic of
lagrange_interpolate into the field GF(257) -/

theorem pow255_eq_inv (a : F257) (h : a ≠ 0) : a ^ 255 = a⁻¹ := by
  have h1 := ZMod.pow_card_sub_one_eq_one h
  norm_num at h1
  rw [pow_succ] at h1
  exact eq_inv_of_mul_eq_one_left h1

theorem intCast_mod257 (a : Int) : ((a % 257 : Int) : F257) = (a : F257) := by
  have h : ((257 : ℤ)) = ((257 : ℕ) : ℤ) := by norm_num
  rw [h, ZMod.intCast_mod]

theorem cast_foldl_mulmod (f : Nat → Int) (i : Nat) :
    ∀ (l : List Nat) (init : Int),
      (((l.foldl (fun a j => if j = i then a else a * f j % 257) init) : Int) :
        F257) =
      (init : F257) *
        ((l.filter (fun j => j != i)).map (fun j => ((f j : Int) : F257))).prod
  | [], init => by simp
  | j :: l, init => by
    by_cases hj : j = i
    · rw [List.foldl_cons, if_pos hj, cast_foldl_mulmod f i l init]
      simp [List.filter_cons, hj]
    · rw [List.foldl_cons, if_neg hj, cast_foldl_mulmod f i l (init * f j % 257)]
      have hc : (((init * f j % 257 : Int)) : F257) =
          (init : F257) * ((f j : Int) : F257) := by
        rw [intCast_mod257]
        push_cast
        ring
      rw [hc]
      have hf : (j != i) = true := by simp [hj]
      simp [List.filter_cons, hf]
      ring

theorem cast_foldl_addmod (t : Nat → Int) :
    ∀ (l : List Nat) (init : Int),
      (((l.foldl (fun r j => (r + t j) % 257) init) : Int) : F257) =
      (init : F257) + (l.map (fun j => ((t j : Int) : F257))).sum
  | [], init => by simp
  | j :: l, init => by
    rw [List.foldl_cons, cast_foldl_addmod t l ((init + t j) % 257)]
    have hc : (((init + t j) % 257 : Int) : F257) =
        (init : F257) + ((t j : Int) : F257) := by
      rw [intCast_mod257]
      push_cast
      ring
    rw [hc]
    simp only [List.map_cons, List.sum_cons]
    ring

theorem foldl_addmod_bounds (t : Nat → Int) :
    ∀ (l : List Nat) (init : Int), l ≠ [] →
      0 ≤ l.foldl (fun r j => (r + t j) % 257) init ∧
      l.foldl (fun r j => (r + t j) % 257) init < 257
  | [], _, h => absurd rfl h
  | [j], init, _ => by
    rw [List.foldl_cons, List.foldl_nil]
    exact ⟨Int.emod_nonneg _ (by norm_num), Int.emod_lt_of_pos _ (by norm_num)⟩
  | j :: j2 :: l, init, _ => by
    rw [List.foldl_cons]
    exact foldl_addmod_bounds t (j2 :: l) ((init + t j) % 257) (by simp)

theorem listRange_map_sum (f : Nat → F257) :
    ∀ k : Nat, ((List.range k).map f).sum = ∑ j ∈ Finset.range k, f j
  | 0 => by simp
  | k + 1 => by
    rw [List.range_succ, List.map_append, List.sum_append,
        Finset.sum_range_succ, listRange_map_sum f k]
    simp

theorem listRange_filter_map_prod (f : Nat → F257) (i : Nat) :
    ∀ k : Nat,
      (((List.range k).filter (fun j => j != i)).map f).prod =
        ∏ j ∈ (Finset.range k).erase i, f j
  | 0 => by simp
  | k + 1 => by
    rw [List.range_succ, List.filter_append, List.map_append, List.prod_append,
        listRange_filter_map_prod f i k, Finset.range_succ]
    by_cases hk : k = i
    · subst hk
      rw [Finset.erase_insert Finset.not_mem_range_self]
      rw [Finset.erase_eq_of_not_mem Finset.not_mem_range_self]
      simp
    · rw [Finset.erase_insert_of_ne (Ne.symm (by exact fun h => hk h.symm))]
      rw [Finset.prod_insert (fun hmem =>
        Finset.not_mem_range_self (Finset.mem_of_mem_erase hmem))]
      have hf : (k != i) = true := by simp [hk]
      simp [List.filter_cons, hf]
      ring

theorem eval_poly_cast (x : Nat) :
    ∀ cs : List Nat, ((eval_poly cs x : Nat) : F257) = (polyOf cs).eval (x : F257)
  | [] => by simp [eval_poly, polyOf]
  | c :: cs => by
    simp only [eval_poly, polyOf, Polynomial.eval_add, Polynomial.eval_C,
      Polynomial.eval_mul, Polynomial.eval_X]
    rw [← eval_poly_cast x cs]
    push_cast
    ring

theorem polyOf_natDegree_lt :
    ∀ cs : List Nat, cs ≠ [] → (polyOf cs).natDegree < cs.length
  | [], h => absurd rfl h
  | [c], _ => by
    simp [polyOf]
  | c :: c2 :: cs, _ => by
    have ih := polyOf_natDegree_lt (c2 :: cs) (by simp)
    have h1 : (polyOf (c :: c2 :: cs)).natDegree ≤
        max (Polynomial.C (c : F257)).natDegree
          (Polynomial.X * polyOf (c2 :: cs)).natDegree :=
      Polynomial.natDegree_add_le _ _
    by_cases hq : polyOf (c2 :: cs) = 0
    · refine lt_of_le_of_lt h1 ?_
      rw [hq, mul_zero, Polynomial.natDegree_C, Polynomial.natDegree_zero]
      simp
    · refine lt_of_le_of_lt h1 ?_
      rw [Polynomial.natDegree_X_mul hq, Polynomial.natDegree_C]
      simp only [List.length_cons] at ih ⊢
      omega

theorem polyOf_degree_lt_card (cs : List Nat) (k : Nat)
    (hne : cs ≠ []) (hk : cs.length ≤ k) :
    (polyOf cs).degree < (k : WithBot ℕ) := by
  by_cases hp : polyOf cs = 0
  · rw [hp, Polynomial.degree_zero, Nat.cast_withBot]
    exact WithBot.bot_lt_coe k
  · rw [Polynomial.degree_eq_natDegree hp, Nat.cast_withBot, Nat.cast_withBot]
    exact WithBot.coe_lt_coe.mpr
      (lt_of_lt_of_le (polyOf_natDegree_lt cs hne) hk)

theorem polyOf_eval_zero (c0 : Nat) (crest : List Nat) :
    (polyOf (c0 :: crest)).eval 0 = (c0 : F257) := by
  simp [polyOf]

theorem getD_map_lt {α β : Type} (f : α → β) (l : List α) (da : α) (db : β)
    (j : Nat) (hj : j < l.length) :
    (l.map f).getD j db = f (l.getD j da) := by
  rw [List.getD_eq_getElem (l.map f) db (by simpa using hj),
      List.getElem_map, List.getD_eq_getElem l da hj]

/-- Evaluating the Lagrange interpolation formula at 0: the exact shape of
the per-term products produced by the code's num/den accumulators. -/
theorem lagrange_eval_zero (k : Nat) (v : Nat → F257) (P : Polynomial F257)
    (hinj : Set.InjOn v (Finset.range k))
    (hdeg : P.degree < (k : WithBot ℕ)) :
    ∑ i ∈ Finset.range k, P.eval (v i) *
      ((((Finset.range k).erase i).prod (fun j => (0 : F257) - v j)) *
       ((((Finset.range k).erase i).prod (fun j => v i - v j))⁻¹)) =
      P.eval 0 := by
  have hdeg' : P.degree < ((Finset.range k).card : WithBot ℕ) := by
    rw [Finset.card_range]
    exact hdeg
  have hP := Lagrange.eq_interpolate hinj hdeg'
  conv_rhs => rw [hP]
  rw [Lagrange.interpolate_apply, Polynomial.eval_finset_sum]
  apply Finset.sum_congr rfl
  intro i _hi
  rw [Polynomial.eval_mul, Polynomial.eval_C]
  congr 1
  rw [Lagrange.basis, Polynomial.eval_prod]
  have hbd : ∀ j ∈ (Finset.range k).erase i,
      Polynomial.eval 0 (Lagrange.basisDivisor (v i) (v j)) =
        (v i - v j)⁻¹ * ((0 : F257) - v j) := by
    intro j _hj
    rw [Lagrange.basisDivisor]
    simp
  rw [Finset.prod_congr rfl hbd, Finset.prod_mul_distrib,
      Finset.prod_inv_distrib]
  ring

/-- Core recovery: the code's mod-257 Lagrange interpolation at x = 0 over
distinct evaluation points in [1, 257], applied to the reduced values of an
integer polynomial with constant term c0 < 256, returns exactly c0
(provided at least degree + 1 points are supplied). -/
theorem lagrange_core (c0 : Nat) (crest : List Nat) (sel : List Nat)
    (hc0 : c0 < 256)
    (hnd : sel.Nodup)
    (hbs : ∀ i ∈ sel, 1 ≤ i ∧ i ≤ 257)
    (hk : crest.length + 1 ≤ sel.length) :
    lagrange_interpolate 0 (sel.map (fun i : Nat => (i : Int)))
      (sel.map (fun i => ((eval_poly (c0 :: crest) i % 257 : Nat) : Int))) =
      (c0 : Int) := by
  set xs := sel.map (fun i : Nat => (i : Int)) with hxs_def
  set ys := sel.map (fun i => ((eval_poly (c0 :: crest) i % 257 : Nat) : Int))
    with hys_def
  have hxslen : xs.length = sel.length := by rw [hxs_def]; simp
  have hxg : ∀ j, j < sel.length → xs.getD j 0 = ((sel.getD j 0 : Nat) : Int) := by
    intro j hj
    rw [hxs_def]
    exact getD_map_lt _ sel 0 0 j hj
  have hyg : ∀ j, j < sel.length →
      ys.getD j 0 = ((eval_poly (c0 :: crest) (sel.getD j 0) % 257 : Nat) : Int) := by
    intro j hj
    rw [hys_def]
    exact getD_map_lt _ sel 0 0 j hj
  set v : Nat → F257 := fun j => ((sel.getD j 0 : Nat) : F257) with hv_def
  have hvround : ∀ j, j < sel.length → 1 ≤ sel.getD j 0 ∧ sel.getD j 0 ≤ 257 := by
    intro j hj
    apply hbs
    rw [List.getD_eq_getElem sel 0 hj]
    exact List.getElem_mem hj
  have hvinj : Set.InjOn v (Finset.range sel.length) := by
    intro a ha b hb hvab
    simp only [Finset.coe_range, Set.mem_Iio] at ha hb
    have hmod := (ZMod.natCast_eq_natCast_iff' _ _ _).mp hvab
    have hba := hvround a ha
    have hbb := hvround b hb
    have heq : sel.getD a 0 = sel.getD b 0 := by omega
    rw [List.getD_eq_getElem sel 0 ha, List.getD_eq_getElem sel 0 hb] at heq
    exact (List.Nodup.getElem_inj_iff hnd).mp heq
  have hcast : ((lagrange_interpolate 0 xs ys : Int) : F257) = (c0 : F257) := by
    unfold lagrange_interpolate
    rw [cast_foldl_addmod
      (fun i =>
        ((List.range xs.length).foldl
          (fun num j => if j = i then num else num * (0 - xs.getD j 0) % 257)
          (ys.getD i 0)) *
        (((List.range xs.length).foldl
          (fun den j =>
            if j = i then den else den * (xs.getD i 0 - xs.getD j 0) % 257)
          1) ^ 255 % 257))
      (List.range xs.length) 0]
    rw [listRange_map_sum, Int.cast_zero, zero_add]
    have hterm : ∀ i ∈ Finset.range xs.length,
        ((((List.range xs.length).foldl
            (fun num j => if j = i then num else num * (0 - xs.getD j 0) % 257)
            (ys.getD i 0)) *
          (((List.range xs.length).foldl
            (fun den j =>
              if j = i then den else den * (xs.getD i 0 - xs.getD j 0) % 257)
            1) ^ 255 % 257) : Int) : F257) =
        (polyOf (c0 :: crest)).eval (v i) *
          ((((Finset.range sel.length).erase i).prod (fun j => (0 : F257) - v j)) *
           ((((Finset.range sel.length).erase i).prod (fun j => v i - v j))⁻¹)) := by
      intro i hi
      have hik : i < sel.length := by
        rw [← hxslen]
        exact Finset.mem_range.mp hi
      rw [Int.cast_mul]
      rw [cast_foldl_mulmod (fun j => 0 - xs.getD j 0) i (List.range xs.length)
        (ys.getD i 0)]
      rw [intCast_mod257, Int.cast_pow]
      rw [cast_foldl_mulmod (fun j => xs.getD i 0 - xs.getD j 0) i
        (List.range xs.length) 1]
      rw [listRange_filter_map_prod, listRange_filter_map_prod, hxslen,
          Int.cast_one, one_mul]
      have hprod0 :
          ((Finset.range sel.length).erase i).prod
            (fun j => (((0 : Int) - xs.getD j 0 : Int) : F257)) =
          ((Finset.range sel.length).erase i).prod (fun j => (0 : F257) - v j) := by
        apply Finset.prod_congr rfl
        intro j hj
        have hjk : j < sel.length :=
          Finset.mem_range.mp (Finset.mem_of_mem_erase hj)
        rw [hxg j hjk]
        push_cast
        rw [hv_def]
      have hprodsub :
          ((Finset.range sel.length).erase i).prod
            (fun j => ((xs.getD i 0 - xs.getD j 0 : Int) : F257)) =
          ((Finset.range sel.length).erase i).prod (fun j => v i - v j) := by
        apply Finset.prod_congr rfl
        intro j hj
        have hjk : j < sel.length :=
          Finset.mem_range.mp (Finset.mem_of_mem_erase hj)
        rw [hxg j hjk, hxg i hik]
        push_cast
        rw [hv_def]
      rw [hprod0, hprodsub]
      have hdenne :
          ((Finset.range sel.length).erase i).prod (fun j => v i - v j) ≠ 0 := by
        rw [Finset.prod_ne_zero_iff]
        intro j hj
        have hjk : j < sel.length :=
          Finset.mem_range.mp (Finset.mem_of_mem_erase hj)
        have hji : j ≠ i := (Finset.mem_erase.mp hj).1
        refine sub_ne_zero_of_ne (fun heq => hji ?_)
        exact (hvinj (by simpa using hik) (by simpa using hjk) heq).symm
      rw [pow255_eq_inv _ hdenne]
      have hys' : ((ys.getD i 0 : Int) : F257) =
          (polyOf (c0 :: crest)).eval (v i) := by
        rw [hyg i hik, Int.cast_natCast, ZMod.natCast_mod, eval_poly_cast,
            hv_def]
      rw [hys']
      ring
    rw [Finset.sum_congr rfl hterm, hxslen]
    rw [lagrange_eval_zero sel.length v (polyOf (c0 :: crest)) hvinj
      (polyOf_degree_lt_card (c0 :: crest) sel.length (by simp)
        (by simpa using hk))]
    exact polyOf_eval_zero c0 crest
  have hbounds : 0 ≤ lagrange_interpolate 0 xs ys ∧
      lagrange_interpolate 0 xs ys < 257 := by
    unfold lagrange_interpolate
    exact foldl_addmod_bounds _ (List.range xs.length) 0
      (by rw [Ne, List.range_eq_nil, hxslen]; omega)
  have htn : ((lagrange_interpolate 0 xs ys).toNat : Int) =
      lagrange_interpolate 0 xs ys := Int.toNat_of_nonneg hbounds.1
  have hcn : (((lagrange_interpolate 0 xs ys).toNat : Nat) : F257) =
      ((c0 : Nat) : F257) := by
    have h := hcast
    rw [← htn] at h
    exact_mod_cast h
  have hmm := (ZMod.natCast_eq_natCast_iff' _ _ _).mp hcn
  omega

/-! ## Shamir recovery: extracting the per-byte field values from share
data and recovering the key from any large-enough selection of shares -/

/-- Dropping 2b bytes from a share's data blob and taking 2 yields the
big-endian encoding of the field value for key byte b. -/
theorem share_bytes_extract (seed : Bytes) (threshold x : Nat) :
    ∀ (ks : List Nat) (bi b : Nat), b < ks.length →
      ((share_bytes seed threshold ks bi x).drop (b * 2)).take 2 =
        [share_y seed threshold (bi + b) (ks.getD b 0) x / 256,
         share_y seed threshold (bi + b) (ks.getD b 0) x % 256]
  | [], _, b, h => absurd h (by simp)
  | k :: ks, bi, 0, _ => by
    simp [share_bytes]
  | k :: ks, bi, b + 1, h => by
    have hb : b < ks.length := by
      simp only [List.length_cons] at h
      omega
    have he : bi + (b + 1) = bi + 1 + b := by omega
    have hm : (b + 1) * 2 = b * 2 + 1 + 1 := by ring
    rw [List.getD_cons_succ, he, hm]
    show ((share_y seed threshold bi k x / 256 ::
        share_y seed threshold bi k x % 256 ::
        share_bytes seed threshold ks (bi + 1) x).drop (b * 2 + 1 + 1)).take 2 =
      _
    rw [List.drop_succ_cons, List.drop_succ_cons]
    exact share_bytes_extract seed threshold x ks (bi + 1) b hb

/-- int.from_bytes inverts the 2-byte big-endian rendering. -/
theorem beToNat_pair (y : Nat) : beToNat [y / 256, y % 256] = y := by
  simp only [beToNat, List.foldl_cons, List.foldl_nil]
  omega

/-- Any selection of shares built from distinct evaluation points in
[1, 257] recovers the key, provided at least threshold points are used. -/
theorem assemble_key_sel (seed : Bytes) (threshold : Nat) (key : Bytes)
    (fp : String) (sel : List Nat)
    (hk32 : key.length = 32)
    (hkb : ∀ b ∈ key, b < 256)
    (ht : 2 ≤ threshold)
    (hnd : sel.Nodup)
    (hbs : ∀ i ∈ sel, 1 ≤ i ∧ i ≤ 257)
    (hlen : threshold ≤ sel.length) :
    assemble_key (sel.map (fun i =>
      (⟨i, share_bytes seed threshold key 0 i, fp⟩ : KeyShare))) 32 = key := by
  apply List.ext_getElem
  · simp [assemble_key, hk32]
  intro n h1 h2
  simp only [assemble_key, List.getElem_map, List.getElem_range]
  have hxs : (sel.map (fun i =>
      (⟨i, share_bytes seed threshold key 0 i, fp⟩ : KeyShare))).map
      (fun s => (s.index : Int)) = sel.map (fun i : Nat => (i : Int)) := by
    rw [List.map_map]
    rfl
  have hys : (sel.map (fun i =>
      (⟨i, share_bytes seed threshold key 0 i, fp⟩ : KeyShare))).map
      (fun s => (beToNat ((s.data.drop (n * 2)).take 2) : Int)) =
      sel.map (fun i =>
        ((eval_poly (key.getD n 0 ::
          (List.range (threshold - 1)).map (shamir_coeff seed threshold n)) i %
          257 : Nat) : Int)) := by
    rw [List.map_map]
    apply List.map_congr_left
    intro i _
    show (beToNat (((share_bytes seed threshold key 0 i).drop (n * 2)).take 2) :
      Int) = _
    rw [share_bytes_extract seed threshold i key 0 n h2, beToNat_pair,
        Nat.zero_add]
    rfl
  rw [hxs, hys]
  have hc0 : key.getD n 0 < 256 := by
    rw [List.getD_eq_getElem key 0 h2]
    exact hkb _ (List.getElem_mem h2)
  rw [lagrange_core (key.getD n 0)
    ((List.range (threshold - 1)).map (shamir_coeff seed threshold n)) sel
    hc0 hnd hbs
    (by simp only [List.length_map, List.length_range]; omega)]
  rw [List.getD_eq_getElem key 0 h2]
  have hlt : key[n] < 256 := hkb _ (List.getElem_mem h2)
  omega

/-- combine succeeds when at least 2 shares agree on the fingerprint, the
assembled key is the expected one and its fingerprint matches. -/
theorem combine_ok_of (sha : HashFn) (shares : List KeyShare) (key : Bytes)
    (h2 : 2 ≤ shares.length)
    (hall : ∀ s ∈ shares,
      s.fingerprint = (shares.headD ⟨0, [], ""⟩).fingerprint)
    (hasm : assemble_key shares 32 = key)
    (hfp : (sha key).take 16 = (shares.headD ⟨0, [], ""⟩).fingerprint) :
    combine sha shares = .ok key := by
  have hany : (shares.any
      (fun s => !(s.fingerprint == (shares.headD ⟨0, [], ""⟩).fingerprint)))
      = false := by
    rw [List.any_eq_false]
    intro s hs
    simp [hall s hs]
  unfold combine
  rw [if_neg (by omega)]
  simp only [hany, Bool.false_eq_true, if_false]
  split_ifs with hne
  · rw [hasm] at hne
    exact absurd hfp hne
  · rw [hasm]

/-- Claim C2 (amended): threshold availability holds for share counts up to
the field prime: for every 32-byte key K, threshold T >= 2 and share count
N with T <= N <= 257, split(K, T, N) succeeds returning K and N shares, and
for every selection of at least T distinct share indices (any T-subset, in
any order, not only a contiguous prefix), combine over the selected shares
returns exactly K.  The bound N <= 257 is forced: split draws the N
evaluation points 1..N from the arithmetic modulo the prime 257, so for
N >= 258 two shares carry colliding evaluation points and reconstruction
from such a pair fails (see the counterexample). -/
theorem C2_threshold_availability_amended (sha : HashFn) (sha512 : Sha512Fn)
    (key : Bytes) (threshold num_shares : Nat) (sel : List Nat)
    (hk32 : key.length = 32)
    (hkb : ∀ b ∈ key, b < 256)
    (ht : 2 ≤ threshold)
    (htn : threshold ≤ num_shares)
    (hns : num_shares ≤ 257)
    (hnd : sel.Nodup)
    (hlen : threshold ≤ sel.length)
    (hmem : ∀ i ∈ sel, 1 ≤ i ∧ i ≤ num_shares) :
    ∃ shares : List KeyShare,
      split sha sha512 key threshold num_shares = .ok (key, shares) ∧
      (∀ i ∈ sel, shares.getD (i - 1) ⟨0, [], ""⟩ =
        ⟨i, share_bytes (sha512 (key ++ shamir_label)) threshold key 0 i,
          (sha key).take 16⟩) ∧
      combine sha (sel.map (fun i => shares.getD (i - 1) ⟨0, [], ""⟩)) =
        .ok key := by
  have hgetD : ∀ j, j < num_shares →
      ((List.range num_shares).map (fun i =>
        (⟨i + 1, share_bytes (sha512 (key ++ shamir_label)) threshold key 0
          (i + 1), (sha key).take 16⟩ : KeyShare))).getD j ⟨0, [], ""⟩ =
        ⟨j + 1, share_bytes (sha512 (key ++ shamir_label)) threshold key 0
          (j + 1), (sha key).take 16⟩ := by
    intro j hj
    rw [List.getD_eq_getElem _ _
      (by simp only [List.length_map, List.length_range]; exact hj)]
    rw [List.getElem_map, List.getElem_range]
  have hsel : ∀ i ∈ sel,
      ((List.range num_shares).map (fun i =>
        (⟨i + 1, share_bytes (sha512 (key ++ shamir_label)) threshold key 0
          (i + 1), (sha key).take 16⟩ : KeyShare))).getD (i - 1) ⟨0, [], ""⟩ =
        ⟨i, share_bytes (sha512 (key ++ shamir_label)) threshold key 0 i,
          (sha key).take 16⟩ := by
    intro i hi
    have hib := hmem i hi
    rw [hgetD (i - 1) (by omega)]
    have hi1 : i - 1 + 1 = i := by omega
    rw [hi1]
  refine ⟨(List.range num_shares).map (fun i =>
    (⟨i + 1, share_bytes (sha512 (key ++ shamir_label)) threshold key 0
      (i + 1), (sha key).take 16⟩ : KeyShare)), ?_, hsel, ?_⟩
  · have h1 : ¬ (key.length ≠ 32) := fun h => h hk32
    have h2 : ¬ (threshold > num_shares) := by omega
    have h3 : ¬ (threshold < 2) := by omega
    unfold split
    rw [if_neg h1, if_neg h2, if_neg h3]
  · have hLeq : sel.map (fun i =>
        ((List.range num_shares).map (fun i =>
          (⟨i + 1, share_bytes (sha512 (key ++ shamir_label)) threshold key 0
            (i + 1), (sha key).take 16⟩ : KeyShare))).getD (i - 1)
          (⟨0, [], ""⟩ : KeyShare)) =
        sel.map (fun i =>
          (⟨i, share_bytes (sha512 (key ++ shamir_label)) threshold key 0 i,
            (sha key).take 16⟩ : KeyShare)) :=
      List.map_congr_left hsel
    rw [hLeq]
    obtain ⟨s0, rest, rfl⟩ : ∃ s0 rest, sel = s0 :: rest := by
      cases sel with
      | nil => exact absurd hlen (by simp only [List.length_nil]; omega)
      | cons a l => exact ⟨a, l, rfl⟩
    have hbs : ∀ i ∈ s0 :: rest, 1 ≤ i ∧ i ≤ 257 := by
      intro i hi
      have := hmem i hi
      omega
    have hasm : assemble_key ((s0 :: rest).map (fun i =>
        (⟨i, share_bytes (sha512 (key ++ shamir_label)) threshold key 0 i,
          (sha key).take 16⟩ : KeyShare))) 32 = key :=
      assemble_key_sel (sha512 (key ++ shamir_label)) threshold key
        ((sha key).take 16) (s0 :: rest) hk32 hkb ht hnd hbs hlen
    apply combine_ok_of
    · have := hlen
      simp only [List.length_cons] at this
      simp only [List.length_map, List.length_cons]
      omega
    · intro s hs
      rw [List.map_cons, List.headD_cons]
      obtain ⟨i, _, rfl⟩ := List.mem_map.mp hs
      rfl
    · exact hasm
    · rw [List.map_cons, List.headD_cons]

/-- Witness for C2 at the concrete key keyW, threshold 2, 3 shares and the
non-contiguous, out-of-order selection of share indices 3 and 1. -/
theorem C2_threshold_availability_amended_witness :
    ∃ shares : List KeyShare,
      split shaD sha512D keyW 2 3 = .ok (keyW, shares) ∧
      (∀ i ∈ [3, 1], shares.getD (i - 1) ⟨0, [], ""⟩ =
        ⟨i, share_bytes (sha512D (keyW ++ shamir_label)) 2 keyW 0 i,
          (shaD keyW).take 16⟩) ∧
      combine shaD ([3, 1].map (fun i => shares.getD (i - 1) ⟨0, [], ""⟩)) =
        .ok keyW :=
  C2_threshold_availability_amended shaD sha512D keyW 2 3 [3, 1]
    (by decide) (by decide) (by decide) (by decide) (by decide) (by decide)
    (by decide) (by decide)

set_option maxRecDepth 40000 in
/-- Counterexample to claim C2 as stated: with num_shares = 258 (threshold
2, a valid call: 2 <= 258), split succeeds, but the share with index 258
evaluates the polynomials at a point congruent to that of share 1 modulo
the prime 257, so combining the distinct shares 1 and 258 — a 2-element
subset of the returned shares with 2 >= threshold — does not return the
key: the interpolation denominators vanish mod 257, the assembled key is
wrong, and combine raises ShareReconstructionFailed instead. -/
theorem C2_counterexample :
    keyW.length = 32 ∧ 2 ≤ 258 ∧
    split shaD sha512D keyW 2 258 = .ok (keyW, sharesC2) ∧
    sharesC2.getD 0 ⟨0, [], ""⟩ ∈ sharesC2 ∧
    sharesC2.getD 257 ⟨0, [], ""⟩ ∈ sharesC2 ∧
    (sharesC2.getD 0 ⟨0, [], ""⟩).index ≠ (sharesC2.getD 257 ⟨0, [], ""⟩).index ∧
    combine shaD [sharesC2.getD 0 ⟨0, [], ""⟩, sharesC2.getD 257 ⟨0, [], ""⟩] =
      .error .fingerprintMismatch := by
  have hlen : sharesC2.length = 258 := rfl
  refine ⟨rfl, by omega, rfl, ?_, ?_, ?_, ?_⟩
  · rw [List.getD_eq_getElem sharesC2 _ (by omega)]
    exact List.getElem_mem (by omega)
  · rw [List.getD_eq_getElem sharesC2 _ (by omega)]
    exact List.getElem_mem (by omega)
  · have h0 : (sharesC2.getD 0 ⟨0, [], ""⟩).index = 1 := rfl
    have h257 : (sharesC2.getD 257 ⟨0, [], ""⟩).index = 258 := rfl
    rw [Ne, h0, h257]
    omega
  · rfl

end Atman
